import Mathlib

/-!
Verification of `findAndReplaceDOMText` (src/bullshit.js, lines 20-282).

The development shallowly embeds the library's core: flattening a DOM
subtree to text (`_getText`), locating regular-expression matches in the
flattened text (`findAndReplaceDOMText` lines 42-49 together with
`_getMatchIndexes`), splicing replacement elements over the matched text
nodes (`_stepThroughMatches` and the closure returned by `_genReplacer`),
and reverting the last replacement pass (`findAndReplaceDOMText.revert`).

Modelling conventions:
- DOM strings are sequences of characters (`List Char`); JavaScript
  number arithmetic on offsets is modelled with `Int` (so that negative
  intermediate values behave as in the source, e.g. `indexOf` returning
  -1), and `String.prototype.substring`-style clamping is made explicit.
- The host regular-expression engine is abstracted as an `exec` function
  (`JsRegex`); the guarantees the JavaScript engine provides are stated
  separately as `RawOk` and assumed only where the source relies on them.
- DOM node identity (references captured by the revert closures) is
  modelled by tagging every Element with a numeric id; the replacement
  machinery allocates fresh ids above every id present in the input tree.
- Thrown JavaScript exceptions are modelled with `Except JsError`.
-/

/-- Character data of DOM text, modelling JavaScript strings. -/
abbrev Str := List Char

/-- Coercion helper turning a Lean string literal into modelled text. -/
def str (s : String) : Str := s.toList

/-- JavaScript `haystack.indexOf(needle)`: index of the first occurrence,
or -1 when the needle does not occur (source line 70 uses this on the
match text). -/
def jsIndexOf : Str → Str → Int
  | hay, needle =>
    if needle.isPrefixOf hay then 0
    else
      match hay with
      | [] => -1
      | _ :: t =>
        let r := jsIndexOf t needle
        if r < 0 then -1 else r + 1

/-- JavaScript `s.substring(0, k)` for a possibly negative or oversized
`k`: negative indices clamp to 0 and oversized ones to the length. -/
def jsTake (k : Int) (s : Str) : Str := s.take k.toNat

/-- JavaScript `s.substring(k)`: drop the first `k` characters, with the
same clamping as `jsTake`. -/
def jsDrop (k : Int) (s : Str) : Str := s.drop k.toNat

/-- Slice of the flattened text between two absolute offsets; used to
state that a match descriptor's text agrees with the flattened text. -/
def sliceStr (t : Str) (a b : Int) : Str := jsTake (b - a) (jsDrop a t)

/-- DOM node over which the library operates: a Text node carrying
character data, or an Element carrying an id (modelling reference
identity), a tag name, and an ordered child list. Non-text non-element
nodes never carry text and are not traversed by the source's text walk,
so they are omitted. -/
inductive DNode where
  | text (data : Str)
  | elem (id : Nat) (tag : String) (children : List DNode)

/-! Boolean equality on nodes (structural). -/
mutual
def beqNode : DNode → DNode → Bool
  | .text d, .text e => d = e
  | .elem i t cs, .elem j u ds => i = j && t = u && beqList cs ds
  | _, _ => false
def beqList : List DNode → List DNode → Bool
  | [], [] => true
  | n :: r, m :: s => beqNode n m && beqList r s
  | _, _ => false
end

mutual
theorem beqNode_eq : ∀ a b, beqNode a b = true ↔ a = b
  | .text d, .text e => by simp [beqNode]
  | .text _, .elem _ _ _ => by simp [beqNode]
  | .elem _ _ _, .text _ => by simp [beqNode]
  | .elem i t cs, .elem j u ds => by
    simp [beqNode, beqList_eq cs ds]
    tauto
theorem beqList_eq : ∀ a b, beqList a b = true ↔ a = b
  | [], [] => by simp [beqList]
  | [], _ :: _ => by simp [beqList]
  | _ :: _, [] => by simp [beqList]
  | n :: r, m :: s => by
    simp [beqList, beqNode_eq n m, beqList_eq r s]
end

instance : DecidableEq DNode := fun a b =>
  decidable_of_iff (beqNode a b = true) (beqNode_eq a b)

/-! Aggregate text of a node, `_getText` (source lines 81-95): a Text
node contributes its data, an Element the concatenation of its
children's text in document order. -/
mutual
def getText : DNode → Str
  | .text d => d
  | .elem _ _ cs => getTextList cs
def getTextList : List DNode → Str
  | [] => []
  | n :: rest => getText n ++ getTextList rest
end

/-! Data of the Text nodes of a subtree in document (pre-order) order;
these are exactly the nodes the cursor walk of `_stepThroughMatches`
visits through `firstChild` / `nextSibling` / `parentNode` navigation. -/
mutual
def textsOf : DNode → List Str
  | .text d => [d]
  | .elem _ _ cs => textsOfList cs
def textsOfList : List DNode → List Str
  | [] => []
  | n :: rest => textsOf n ++ textsOfList rest
end

/-! Largest Element id occurring in a subtree (0 when none); fresh ids
for replacement elements are allocated above this bound. -/
mutual
def maxElemId : DNode → Nat
  | .text _ => 0
  | .elem i _ cs => max i (maxElemIdList cs)
def maxElemIdList : List DNode → Nat
  | [] => 0
  | n :: rest => max (maxElemId n) (maxElemIdList rest)
end

/-! Number of Element nodes with the given id in a subtree. -/
mutual
def countEl (id : Nat) : DNode → Nat
  | .text _ => 0
  | .elem i _ cs => (if i = id then 1 else 0) + countElList id cs
def countElList (id : Nat) : List DNode → Nat
  | [] => 0
  | n :: rest => countEl id n + countElList id rest
end

/-- Merge step of DOM `Node.normalize()`: prepend a node onto an already
normalized sibling list, concatenating adjacent Text data and dropping
empty Text nodes. -/
def consNorm : DNode → List DNode → List DNode
  | .text d, .text e :: r => if d ++ e = [] then r else .text (d ++ e) :: r
  | .text d, r => if d = [] then r else .text d :: r
  | n, r => n :: r

/-! DOM `Node.normalize()` over a subtree (invoked by every revert
closure, source lines 241 and 271): in the result no Text node is empty
and no two Text nodes are adjacent. -/
mutual
def normalizeNode : DNode → DNode
  | .text d => .text d
  | .elem i t cs => .elem i t (normalizeList cs)
def normalizeList : List DNode → List DNode
  | [] => []
  | n :: rest => consNorm (normalizeNode n) (normalizeList rest)
end

/-- Exceptions the source can throw: the two explicit string throws of
`_getMatchIndexes` (lines 63 and 69) and the implicit `TypeError` of
dereferencing `null`/`undefined` (e.g. `m[0]` on a null match result, or
`reverts.length` before `reverts` is initialised). -/
inductive JsError where
  | zeroLengthMatch
  | invalidCaptureGroup
  | typeError
deriving DecidableEq, Repr

deriving instance DecidableEq for Except

/-- Result of one successful `RegExp.prototype.exec` call: the match
position (`m.index`), the matched text (`m[0]`) and the captured groups
(`m[1]`, `m[2]`, ...; `none` models a group that did not participate). -/
structure RawMatch where
  index : Nat
  matched : Str
  groups : List (Option Str)

/-- JavaScript `m[captureGroup]` for `captureGroup > 0`: the entries of
`m` past index 0 are the capture groups; out-of-range access yields
`undefined`, modelled as `none`. -/
def groupGet (m : RawMatch) (captureGroup : Nat) : Option Str :=
  match m.groups.get? (captureGroup - 1) with
  | none => none
  | some g => g

/-- Match descriptor produced by `_getMatchIndexes` (source line 74):
the array `[index, index + m[0].length, [m[0]]]`. -/
structure MatchDesc where
  start : Int
  endIdx : Int
  matched : Str
deriving DecidableEq, Repr

/-- Embedding of `_getMatchIndexes` (source lines 59-75). The argument
is `Option RawMatch` because the non-global branch of
`findAndReplaceDOMText` passes the raw result of `text.match(regex)`,
which is `null` when there is no match; `m[0]` on `null` throws a
`TypeError`. An empty `m[0]` throws the zero-length error; with a
positive capture group, a missing or empty captured string is falsy and
throws the invalid-capture-group error, and otherwise the index is
advanced by `m[0].indexOf(cg)` and `m[0]` is replaced by the capture. -/
def getMatchIndexes (m : Option RawMatch) (captureGroup : Nat) :
    Except JsError MatchDesc :=
  match m with
  | none => .error .typeError
  | some m =>
    if m.matched = [] then .error .zeroLengthMatch
    else if captureGroup > 0 then
      match groupGet m captureGroup with
      | none => .error .invalidCaptureGroup
      | some g =>
        if g = [] then .error .invalidCaptureGroup
        else
          let index : Int := (m.index : Int) + jsIndexOf m.matched g
          .ok ⟨index, index + g.length, g⟩
    else
      .ok ⟨(m.index : Int), (m.index : Int) + m.matched.length, m.matched⟩

/-- Abstraction of a compiled JavaScript regular expression: its
`global` flag and its `exec` behaviour as a function of the subject text
and the engine's `lastIndex` cursor. -/
structure JsRegex where
  global : Bool
  exec : Str → Nat → Option RawMatch

/-- Guarantees `RegExp.prototype.exec` provides for a match found from
cursor position `pos`: the match starts at or after the cursor, lies
within the text, `m[0]` is the text at the match position, and every
participating capture occurs inside `m[0]` (the source's narrowing step
locates the capture with `indexOf` inside `m[0]`). -/
def RawOk (text : Str) (pos : Nat) (r : RawMatch) : Prop :=
  pos ≤ r.index ∧
  r.index + r.matched.length ≤ text.length ∧
  r.matched = (text.drop r.index).take r.matched.length ∧
  ∀ g ∈ r.groups, ∀ s, g = some s → 0 ≤ jsIndexOf r.matched s

/-- Engine contract for a whole regex against a given text. -/
def EngineOk (rx : JsRegex) (text : Str) : Prop :=
  ∀ pos r, rx.exec text pos = some r → RawOk text pos r

/-- Repeated-search loop of `findAndReplaceDOMText` (source lines
42-45): `while (m = regex.exec(text)) matches.push(_getMatchIndexes(m,
captureGroup))`, where the engine advances `lastIndex` to the end of
each match. The recursion is driven by explicit fuel; the callers pass
enough fuel for any engine satisfying `EngineOk` (each successful
iteration either throws on a zero-length match or strictly advances the
cursor). -/
def collectMatches (rx : JsRegex) (text : Str) (captureGroup : Nat) :
    Nat → Nat → Except JsError (List MatchDesc)
  | 0, _ => .ok []
  | fuel + 1, pos =>
    match rx.exec text pos with
    | none => .ok []
    | some m =>
      match getMatchIndexes (some m) captureGroup with
      | .error e => .error e
      | .ok d =>
        match collectMatches rx text captureGroup fuel (m.index + m.matched.length) with
        | .error e => .error e
        | .ok ds => .ok (d :: ds)

/-- Match-location phase of `findAndReplaceDOMText` (source lines
42-49): the global branch collects matches with the repeated-search
loop; the non-global branch runs `text.match(regex)` once (a search from
position 0) and pushes `_getMatchIndexes` of its result unconditionally,
so a null result reaches `_getMatchIndexes` and throws. -/
def locate (rx : JsRegex) (text : Str) (captureGroup : Nat) :
    Except JsError (List MatchDesc) :=
  if rx.global then collectMatches rx text captureGroup (text.length + 1) 0
  else
    match getMatchIndexes (rx.exec text 0) captureGroup with
    | .error e => .error e
    | .ok d => .ok [d]

/-- State of the traversal of `_stepThroughMatches` (source lines
101-175): the running text offset `atIndex`, the remaining match list
(`matchLocation` is its head), the zero-based `matchIndex`, whether the
current match's start node has been found (`startNode` non-null), the
ids of the replacement elements already created for the current match
(`elA` followed by the inner replacements, mirroring `innerEls`), the
recorded revert actions (each action lists, in order, the replacement
elements the corresponding closure unwraps), and the next fresh id. -/
structure SpliceState where
  atIndex : Int
  matchQueue : List MatchDesc
  matchIndex : Nat
  started : Bool
  pendingElems : List Nat
  reverts : List (List Nat)
  nextId : Nat
deriving Repr

/-- Outcome of visiting one Text node in the walk (source lines
116-131): the node can resolve the match end (with the start already
resolved, `endMulti`, or resolved at this same node, `endSingle`), be an
intervening node (`innerHit`), resolve the match start only
(`startHit`), or be untouched (`skip`). The `endOrphan` outcome (end
condition holds, start condition fails) is impossible for any descriptor
with `start < endIdx` and corresponds to the undefined behaviour the
spec assigns to inconsistent match input. -/
inductive VisitKind where
  | endMulti
  | endSingle
  | endOrphan
  | innerHit
  | startHit
  | skip
deriving DecidableEq, Repr

/-- Classification of one Text-node visit, mirroring the conditionals of
source lines 117-129: the end check `!endNode && curNode.length + atIndex
>= matchLocation[1]` runs first; its else-branch appends to `innerNodes`
when `startNode` is set; the independent start check is `!startNode &&
curNode.length + atIndex > matchLocation[0]`. -/
def classifyVisit (started : Bool) (atIndex len : Int) (m : MatchDesc) : VisitKind :=
  if atIndex + len ≥ m.endIdx then
    if started then .endMulti
    else if atIndex + len > m.start then .endSingle
    else .endOrphan
  else if started then .innerHit
  else if atIndex + len > m.start then .startHit
  else .skip

/-- Replacement-node construction for a non-function `replacementNode`
argument (source lines 198-209): a fresh element cloned from the stencil
(for a tag-name argument, `document.createElement(nodeName)`, which has
no children), with the fill text appended as sole child; the `if (fill)`
guard skips the text child when the fill is empty. -/
def mkReplacement (tag : String) (fill : Str) (id : Nat) : DNode :=
  DNode.elem id tag (if fill = [] then [] else [DNode.text fill])

/-- Identity edit list: every Text node is left in place (used once the
match list is exhausted and the walk stops, source lines 152-153). -/
def identityEdits (texts : List Str) : List (List DNode) :=
  texts.map (fun d => [DNode.text d])

/-- Prepend nodes onto the first edit of an edit list (used when a
splice leaves a tail of the current Text node that the walk re-visits
under its new identity). -/
def consEdit (ns : List DNode) : List (List DNode) → List (List DNode)
  | [] => [ns]
  | e :: es => (ns ++ e) :: es

/-- Functional embedding of `_stepThroughMatches` (source lines 101-175)
combined with the replace closure of `_genReplacer` (lines 214-276), for
a stencil-built replacement node. The imperative walk visits Text nodes
in document (pre-order) order; this embedding processes their character
data in that order. `fuel` drives the recursion; each step either
consumes one Text node or resolves one match, so
`matchQueue.length + texts.length` fuel always suffices.

Per visited Text node (data `d`, running offset `atIndex`):
- `endSingle` (start and end in this node, lines 220-243): the node is
  replaced by the optional leading Text node (`startNodeIndex > 0`), the
  replacement element filled with `match[0]`, and the optional trailing
  Text node (`endNodeIndex < node.length`); the trailing tail is
  re-visited with `atIndex` adjusted by
  `atIndex += len; atIndex -= (endNode.length - endNodeIndex)`
  (lines 130 and 146); a one-element revert action is recorded.
- `endMulti` (lines 244-275, end node part): the node is replaced by the
  replacement element filled with its matched head and an unconditional
  trailing Text node holding the tail, which is re-visited likewise; the
  revert action lists `elA`, the inner replacements, then `elB`.
- `innerHit`: the node is wholly replaced by a replacement element
  filled with its data (lines 250-255), recorded as pending.
- `startHit` (lines 246, 248, 257-259, start node part): the node is
  replaced by an unconditional leading Text node and the replacement
  element `elA` filled with its matched tail. The source performs this
  splice later, when the end node is found, but the pieces depend only
  on this node and `startNodeIndex`, the splice always happens once the
  walk (which never revisits this node) locates the end node, and the
  walk halts without splicing only on match input the spec declares
  undefined behaviour; on all contract-satisfying input the effect is
  identical.
- `skip`: the node is untouched.
- `endOrphan` cannot arise for descriptors with `start < endIdx`; the
  spec declares such input undefined behaviour, and the embedding leaves
  the node untouched there. -/
def walkTexts (tag : String) : Nat → SpliceState → List Str → SpliceState × List (List DNode)
  | 0, st, texts => (st, identityEdits texts)
  | _ + 1, st, [] => (st, [])
  | fuel + 1, st, d :: rest =>
    match st.matchQueue with
    | [] => (st, identityEdits (d :: rest))
    | m :: qs =>
      let a := st.atIndex
      let len : Int := d.length
      match classifyVisit st.started a len m with
      | .endMulti =>
        let endIdx := m.endIdx - a
        let elB := mkReplacement tag (jsTake endIdx d) st.nextId
        let action := st.pendingElems ++ [st.nextId]
        let st' : SpliceState :=
          { atIndex := a + len - (len - endIdx),
            matchQueue := qs, matchIndex := st.matchIndex + 1,
            started := false, pendingElems := [],
            reverts := st.reverts ++ [action],
            nextId := st.nextId + 1 }
        let res := walkTexts tag fuel st' (jsDrop endIdx d :: rest)
        (res.1, consEdit [elB] res.2)
      | .endSingle =>
        let startIdx := m.start - a
        let endIdx := m.endIdx - a
        let beforeL := if startIdx > 0 then [DNode.text (jsTake startIdx d)] else []
        let el := mkReplacement tag m.matched st.nextId
        let st' : SpliceState :=
          { atIndex := a + len - (len - endIdx),
            matchQueue := qs, matchIndex := st.matchIndex + 1,
            started := false, pendingElems := [],
            reverts := st.reverts ++ [[st.nextId]],
            nextId := st.nextId + 1 }
        if endIdx < len then
          let res := walkTexts tag fuel st' (jsDrop endIdx d :: rest)
          (res.1, consEdit (beforeL ++ [el]) res.2)
        else
          let res := walkTexts tag fuel st' rest
          (res.1, (beforeL ++ [el]) :: res.2)
      | .innerHit =>
        let innerEl := mkReplacement tag d st.nextId
        let st' : SpliceState :=
          { st with atIndex := a + len,
                    pendingElems := st.pendingElems ++ [st.nextId],
                    nextId := st.nextId + 1 }
        let res := walkTexts tag fuel st' rest
        (res.1, [innerEl] :: res.2)
      | .startHit =>
        let startIdx := m.start - a
        let beforeN := DNode.text (jsTake startIdx d)
        let elA := mkReplacement tag (jsDrop startIdx d) st.nextId
        let st' : SpliceState :=
          { st with atIndex := a + len, started := true,
                    pendingElems := [st.nextId],
                    nextId := st.nextId + 1 }
        let res := walkTexts tag fuel st' rest
        (res.1, [beforeN, elA] :: res.2)
      | .endOrphan =>
        let st' : SpliceState := { st with atIndex := a + len }
        let res := walkTexts tag fuel st' rest
        (res.1, [DNode.text d] :: res.2)
      | .skip =>
        let st' : SpliceState := { st with atIndex := a + len }
        let res := walkTexts tag fuel st' rest
        (res.1, [DNode.text d] :: res.2)

/-! Application of the per-Text-node edits back onto the tree: the i-th
Text node in document order is replaced, in its parent's child list, by
the i-th edit. Elements and their nesting are preserved untouched, as in
the source, where all splices happen via `insertBefore`/`removeChild`/
`replaceChild` around the affected Text nodes. -/
mutual
def rebuildNode : DNode → List (List DNode) → List DNode × List (List DNode)
  | DNode.text d, edits =>
    match edits with
    | [] => ([DNode.text d], [])
    | e :: es => (e, es)
  | DNode.elem i t cs, edits =>
    let res := rebuildList cs edits
    ([DNode.elem i t res.1], res.2)
def rebuildList : List DNode → List (List DNode) → List DNode × List (List DNode)
  | [], edits => ([], edits)
  | n :: rest, edits =>
    let res := rebuildNode n edits
    let res' := rebuildList rest res.2
    (res.1 ++ res'.1, res'.2)
end

/-- Embedding of `_stepThroughMatches` applied to an Element root: walk
the Text data in document order, then splice the edits into the tree.
Fresh element ids start above every id in the input tree. A Text-node
root would be spliced into its parent, which lies outside the modelled
subtree, so the embedding covers Element roots (the source is run on
`document.body`). -/
def stepThroughMatches (root : DNode) (ms : List MatchDesc) (tag : String) :
    DNode × List (List Nat) :=
  match root with
  | DNode.text _ => (root, [])
  | DNode.elem i t cs =>
    let st0 : SpliceState :=
      { atIndex := 0, matchQueue := ms, matchIndex := 0, started := false,
        pendingElems := [], reverts := [], nextId := maxElemId root + 1 }
    let texts := textsOfList cs
    let res := walkTexts tag (ms.length + texts.length) st0 texts
    (DNode.elem i t (rebuildList cs res.2).1, res.1.reverts)

/-- Module-level `reverts` variable (source line 177): `none` models the
uninitialised `undefined` before the first `_genReplacer` call; `some
actions` models the populated array. -/
abbrev GlobalState := Option (List (List Nat))

/-- Initial module state: `var reverts;` leaves `reverts` undefined. -/
def initialState : GlobalState := none

/-- Embedding of `findAndReplaceDOMText` (source lines 35-54) for a
tag-name `replacementNode`, with the module state threaded explicitly.
The incoming state is overwritten: `_genReplacer` resets `reverts` to
`[]` before the empty-text early return and before match location, so
the state is `some []` on every path that performs no replacement, and
`some actions` after a replacing run. Thrown errors leave the tree
untouched because `_stepThroughMatches` only runs after the whole match
list has been built. -/
def findAndReplaceST (rx : JsRegex) (root : DNode) (tag : String)
    (captureGroup : Nat) : GlobalState → Except JsError DNode × GlobalState :=
  fun _ =>
    let text := getText root
    if text = [] then (.ok root, some [])
    else
      match locate rx text captureGroup with
      | .error e => (.error e, some [])
      | .ok ms =>
        match ms with
        | [] => (.ok root, some [])
        | _ :: _ =>
          let res := stepThroughMatches root ms tag
          (.ok res.1, some res.2)

/-- Combination step for searching a child list for the parent of the
element to unwrap (keeps the recursion structural). -/
def dirCons (n : DNode) : Option (Except JsError (List DNode)) →
    Option (Except JsError (List DNode))
  | none => none
  | some (.error e) => some (.error e)
  | some (.ok rest') => some (.ok (n :: rest'))

/-- Direct-child step of a revert closure (source lines 237-242 and
268-271): when the element with the given id is in this child list,
`pnode.insertBefore(el.firstChild, el); pnode.removeChild(el)` replaces
it by its first child; `el.firstChild` is null when the element has no
children, and `insertBefore(null, el)` throws a `TypeError`. Returns
`none` when the element is not a direct child. -/
def directReplace (id : Nat) : List DNode → Option (Except JsError (List DNode))
  | [] => none
  | DNode.elem i t cs :: rest =>
    if i = id then
      some (match cs with
        | [] => .error .typeError
        | c :: _ => .ok (c :: rest))
    else dirCons (DNode.elem i t cs) (directReplace id rest)
  | n :: rest => dirCons n (directReplace id rest)

/-- Combination step for the sibling search of `unwrapList`. -/
def unwrapCons (n : DNode) (rest : List DNode) :
    Option (Except JsError DNode) → Option (Except JsError (List DNode)) →
    Option (Except JsError (List DNode))
  | some (.error e), _ => some (.error e)
  | some (.ok n'), _ => some (.ok (n' :: rest))
  | none, some (.error e) => some (.error e)
  | none, some (.ok rest') => some (.ok (n :: rest'))
  | none, none => none

/-- Combination step for `unwrapNode` on an element: if the target is a
direct child, this element is `pnode` and its subtree is normalized
after the replacement (`pnode.normalize()`); otherwise the search
continues deeper. -/
def elemUnwrapStep (i : Nat) (t : String) :
    Option (Except JsError (List DNode)) →
    Option (Except JsError (List DNode)) → Option (Except JsError DNode)
  | some (.error e), _ => some (.error e)
  | some (.ok cs'), _ => some (.ok (DNode.elem i t (normalizeList cs')))
  | none, some (.error e) => some (.error e)
  | none, some (.ok cs') => some (.ok (DNode.elem i t cs'))
  | none, none => none

/-! One revert-closure unwrap (source lines 237-242, 268-271) located by
element id: find the replacement element's parent, replace the element by
its first child there, and normalize the parent's subtree. `none` means
the id does not occur in the searched subtree. -/
mutual
def unwrapNode (id : Nat) : DNode → Option (Except JsError DNode)
  | .text _ => none
  | .elem i t cs => elemUnwrapStep i t (directReplace id cs) (unwrapList id cs)
def unwrapList (id : Nat) : List DNode → Option (Except JsError (List DNode))
  | [] => none
  | n :: rest => unwrapCons n rest (unwrapNode id n) (unwrapList id rest)
end

/-- Unwrap one replacement element inside the root. The closures of the
source hold direct references, so the element is always found there; the
not-found fallback mirrors the `TypeError` of operating on a detached
node and is never reached from the modelled flows. -/
def unwrapIn (root : DNode) (id : Nat) : Except JsError DNode :=
  match unwrapNode id root with
  | none => .error .typeError
  | some r => r

/-- Run the unwraps of one revert closure in order (for a multi-node
replacement: `elA`, the inner replacements, then `elB`, source lines
263-273). -/
def runIds (root : DNode) : List Nat → Except JsError DNode
  | [] => .ok root
  | id :: rest =>
    match unwrapIn root id with
    | .error e => .error e
    | .ok root' => runIds root' rest

/-- Run all recorded revert closures in original application order
(source lines 181-186, the loop body of `revert`). -/
def runActions (root : DNode) : List (List Nat) → Except JsError DNode
  | [] => .ok root
  | a :: rest =>
    match runIds root a with
    | .error e => .error e
    | .ok root' => runActions root' rest

/-- Embedding of `findAndReplaceDOMText.revert` (source lines 181-186):
with `reverts` still undefined, reading `reverts.length` throws a
`TypeError`; otherwise every recorded closure runs in order and the list
is cleared. A closure that throws propagates the exception before the
clearing assignment runs, so the state keeps the old list. -/
def revertOp (g : GlobalState) (root : DNode) : Except JsError DNode × GlobalState :=
  match g with
  | none => (.error .typeError, none)
  | some acts =>
    match runActions root acts with
    | .error e => (.error e, some acts)
    | .ok root' => (.ok root', some [])

/-- Substring test at a fixed position (helper for the literal engine). -/
def substrAtB (t : Str) (i : Nat) (pat : Str) : Bool := pat.isPrefixOf (t.drop i)

/-- First position at or after `pos` where `pat` occurs in `text`. -/
def findFrom (text pat : Str) (pos : Nat) : Option Nat :=
  List.find? (fun i => decide (pos ≤ i) && substrAtB text i pat) (List.range (text.length + 1))

/-- Exec function of a literal-text pattern: the leftmost occurrence at
or after the cursor, with no capture groups (a concrete well-behaved
instance of the abstract engine, used to instantiate the theorems). -/
def literalExec (pat : Str) (text : Str) (pos : Nat) : Option RawMatch :=
  match findFrom text pat pos with
  | none => none
  | some i => some ⟨i, pat, []⟩

/-- Literal-text pattern with a chosen `global` flag. -/
def literalRegex (pat : Str) (g : Bool) : JsRegex := ⟨g, literalExec pat⟩

/-- Concatenation of a list of texts (the flattened text is the
concatenation of the Text-node data in document order). -/
def concatStr : List Str → Str
  | [] => []
  | t :: ts => t ++ concatStr ts

/-- Flattened text of an edit list. -/
def flattenEdits : List (List DNode) → Str
  | [] => []
  | e :: es => getTextList e ++ flattenEdits es

/-- Occurrences of an element id across an edit list. -/
def countElEdits (id : Nat) : List (List DNode) → Nat
  | [] => 0
  | e :: es => countElList id e + countElEdits id es

/-- Shape of a replacement element the revert closures can undo: the
given id and tag with exactly one non-empty Text child. -/
def goodShape (id : Nat) (tag : String) : DNode → Bool
  | .elem i t [.text fill] => i = id && t = tag && !fill.isEmpty
  | _ => false

/-! Occurrences of undoable replacement elements in a subtree. -/
mutual
def countGoodEl (id : Nat) (tag : String) : DNode → Nat
  | .text _ => 0
  | .elem i t cs =>
    (if goodShape id tag (.elem i t cs) then 1 else 0) + countGoodElList id tag cs
def countGoodElList (id : Nat) (tag : String) : List DNode → Nat
  | [] => 0
  | n :: rest => countGoodEl id tag n + countGoodElList id tag rest
end

/-- Occurrences of undoable replacement elements across an edit list. -/
def countGoodElEdits (id : Nat) (tag : String) : List (List DNode) → Nat
  | [] => 0
  | e :: es => countGoodElList id tag e + countGoodElEdits id tag es

theorem getTextList_append (a b : List DNode) :
    getTextList (a ++ b) = getTextList a ++ getTextList b := by
  induction a with
  | nil => rfl
  | cons n r ih => simp [getTextList, ih]

theorem getTextList_eq_concat_textsOf : ∀ cs : List DNode,
    getTextList cs = concatStr (textsOfList cs) := by
  have key : ∀ n : DNode, getText n = concatStr (textsOf n) := by
    intro n
    induction n using DNode.rec
      (motive_2 := fun l => getTextList l = concatStr (textsOfList l)) with
    | text d => simp [getText, textsOf, concatStr]
    | elem i t cs ih => simpa [getText, textsOf] using ih
    | nil => rfl
    | cons n l ihn ihl =>
      have harr : ∀ a b : List Str, concatStr (a ++ b) = concatStr a ++ concatStr b := by
        intro a b
        induction a with
        | nil => rfl
        | cons x xs ih => simp [concatStr, ih]
      simp [getTextList, textsOfList, ihn, ihl, harr]
  intro cs
  induction cs with
  | nil => rfl
  | cons n r ih =>
    have harr : ∀ a b : List Str, concatStr (a ++ b) = concatStr a ++ concatStr b := by
      intro a b
      induction a with
      | nil => rfl
      | cons x xs ih2 => simp [concatStr, ih2]
    simp [getTextList, textsOfList, key n, ih, harr]

theorem concatStr_append (a b : List Str) :
    concatStr (a ++ b) = concatStr a ++ concatStr b := by
  induction a with
  | nil => rfl
  | cons x xs ih => simp [concatStr, ih]

theorem getText_mkReplacement (tag : String) (fill : Str) (id : Nat) :
    getText (mkReplacement tag fill id) = fill := by
  by_cases h : fill = [] <;> simp [mkReplacement, h, getText, getTextList]

theorem flattenEdits_consEdit (ns : List DNode) (es : List (List DNode)) :
    flattenEdits (consEdit ns es) = getTextList ns ++ flattenEdits es := by
  cases es <;> simp [consEdit, flattenEdits, getTextList_append]

theorem flattenEdits_identity (texts : List Str) :
    flattenEdits (identityEdits texts) = concatStr texts := by
  induction texts with
  | nil => rfl
  | cons t ts ih =>
    have h : flattenEdits (identityEdits (t :: ts)) = t ++ flattenEdits (identityEdits ts) := by
      simp [identityEdits, flattenEdits, getTextList, getText]
    rw [h, ih]
    rfl

theorem length_identityEdits (texts : List Str) :
    (identityEdits texts).length = texts.length := by
  simp [identityEdits]

theorem countElList_append (id : Nat) (a b : List DNode) :
    countElList id (a ++ b) = countElList id a + countElList id b := by
  induction a with
  | nil => simp [countElList]
  | cons n r ih => simp [countElList, ih]; omega

theorem countGoodElList_append (id : Nat) (tag : String) (a b : List DNode) :
    countGoodElList id tag (a ++ b) =
      countGoodElList id tag a + countGoodElList id tag b := by
  induction a with
  | nil => simp [countGoodElList]
  | cons n r ih => simp [countGoodElList, ih]; omega

theorem countElEdits_consEdit (id : Nat) (ns : List DNode) (es : List (List DNode)) :
    countElEdits id (consEdit ns es) = countElList id ns + countElEdits id es := by
  cases es <;> simp [consEdit, countElEdits, countElList_append, countElList] <;> omega

theorem countGoodElEdits_consEdit (id : Nat) (tag : String) (ns : List DNode)
    (es : List (List DNode)) :
    countGoodElEdits id tag (consEdit ns es) =
      countGoodElList id tag ns + countGoodElEdits id tag es := by
  cases es <;> simp [consEdit, countGoodElEdits, countGoodElList_append, countGoodElList] <;> omega

theorem countElEdits_identity (id : Nat) (texts : List Str) :
    countElEdits id (identityEdits texts) = 0 := by
  induction texts with
  | nil => rfl
  | cons t ts ih => simpa [identityEdits, countElEdits, countElList, countEl] using ih

theorem countGoodElEdits_identity (id : Nat) (tag : String) (texts : List Str) :
    countGoodElEdits id tag (identityEdits texts) = 0 := by
  induction texts with
  | nil => rfl
  | cons t ts ih => simpa [identityEdits, countGoodElEdits, countGoodElList, countGoodEl] using ih

theorem countEl_mkReplacement (id j : Nat) (tag : String) (fill : Str) :
    countEl id (mkReplacement tag fill j) = if j = id then 1 else 0 := by
  by_cases h : fill = [] <;> simp [mkReplacement, h, countEl, countElList]

theorem countGoodEl_mkReplacement (id j : Nat) (tag : String) (fill : Str) (h : fill ≠ []) :
    countGoodEl id tag (mkReplacement tag fill j) = if j = id then 1 else 0 := by
  by_cases hj : j = id <;>
    simp [mkReplacement, h, countGoodEl, countGoodElList, goodShape, List.isEmpty_iff, hj]

theorem goodShape_iff (id : Nat) (tag : String) (n : DNode) :
    goodShape id tag n = true ↔ ∃ fill, n = .elem id tag [.text fill] ∧ fill ≠ [] := by
  cases n with
  | text d => simp [goodShape]
  | elem i t cs =>
    cases cs with
    | nil => simp [goodShape]
    | cons c cr =>
      cases c with
      | text fill =>
        cases cr with
        | nil =>
          simp [goodShape, List.isEmpty_iff]
          aesop
        | cons _ _ => simp [goodShape]
      | elem _ _ _ => simp [goodShape]

theorem countGoodEl_le_countEl (id : Nat) (tag : String) : ∀ n : DNode,
    countGoodEl id tag n ≤ countEl id n := by
  intro n
  induction n using DNode.rec
    (motive_2 := fun l => countGoodElList id tag l ≤ countElList id l) with
  | text d => simp [countGoodEl, countEl]
  | elem i t cs ih =>
    simp only [countGoodEl, countEl]
    have h2 : (if goodShape id tag (.elem i t cs) then 1 else 0) ≤ (if i = id then 1 else 0) := by
      by_cases h : goodShape id tag (.elem i t cs)
      · obtain ⟨fill, heq, -⟩ := (goodShape_iff id tag _).1 h
        cases heq
        simp [h]
      · simp [h]
    omega
  | nil => simp [countGoodElList, countElList]
  | cons n l ihn ihl =>
    simp only [countGoodElList, countElList]
    omega

theorem getText_consNorm (m : DNode) (r : List DNode) :
    getTextList (consNorm m r) = getText m ++ getTextList r := by
  cases m with
  | text d =>
    cases r with
    | nil =>
      by_cases h : d = [] <;> simp [consNorm, h, getTextList, getText]
    | cons hd tl =>
      cases hd with
      | text e =>
        simp only [consNorm]
        by_cases h : d ++ e = []
        · have hd0 : d = [] := by
            have := congrArg List.length h
            simp at this
            simp [this.1]
          have he0 : e = [] := by
            have := congrArg List.length h
            simp at this
            simp [this.2]
          simp [h, getTextList, getText, hd0, he0]
        · simp [h, getTextList, getText]
      | elem j u ds =>
        by_cases h : d = [] <;> simp [consNorm, h, getTextList, getText]
  | elem i t cs => simp [consNorm, getTextList]

theorem countEl_consNorm (id : Nat) (m : DNode) (r : List DNode) :
    countElList id (consNorm m r) = countEl id m + countElList id r := by
  cases m with
  | text d =>
    cases r with
    | nil => by_cases h : d = [] <;> simp [consNorm, h, countElList, countEl]
    | cons hd tl =>
      cases hd with
      | text e =>
        simp only [consNorm]
        by_cases h : d ++ e = [] <;> simp [h, countElList, countEl]
      | elem j u ds =>
        by_cases h : d = [] <;> simp [consNorm, h, countElList, countEl]
  | elem i t cs => simp [consNorm, countElList]

theorem countGoodEl_consNorm (id : Nat) (tag : String) (m : DNode) (r : List DNode) :
    countGoodElList id tag (consNorm m r) =
      countGoodEl id tag m + countGoodElList id tag r := by
  cases m with
  | text d =>
    cases r with
    | nil => by_cases h : d = [] <;> simp [consNorm, h, countGoodElList, countGoodEl]
    | cons hd tl =>
      cases hd with
      | text e =>
        simp only [consNorm]
        by_cases h : d ++ e = [] <;> simp [h, countGoodElList, countGoodEl]
      | elem j u ds =>
        by_cases h : d = [] <;> simp [consNorm, h, countGoodElList, countGoodEl]
  | elem i t cs => simp [consNorm, countGoodElList]

theorem getText_normalize : ∀ n, getText (normalizeNode n) = getText n := by
  intro n
  induction n using DNode.rec
    (motive_2 := fun l => getTextList (normalizeList l) = getTextList l) with
  | text d => rfl
  | elem i t cs ih => simpa [normalizeNode, getText] using ih
  | nil => rfl
  | cons n l ihn ihl =>
    show getTextList (consNorm (normalizeNode n) (normalizeList l)) = getText n ++ getTextList l
    rw [getText_consNorm, ihn, ihl]

theorem getTextList_normalize (l : List DNode) :
    getTextList (normalizeList l) = getTextList l := by
  induction l with
  | nil => rfl
  | cons n r ih =>
    show getTextList (consNorm (normalizeNode n) (normalizeList r)) = getText n ++ getTextList r
    rw [getText_consNorm, getText_normalize, ih]

theorem countEl_normalize (id : Nat) : ∀ n, countEl id (normalizeNode n) = countEl id n := by
  intro n
  induction n using DNode.rec
    (motive_2 := fun l => countElList id (normalizeList l) = countElList id l) with
  | text d => rfl
  | elem i t cs ih => simpa [normalizeNode, countEl] using ih
  | nil => rfl
  | cons n l ihn ihl =>
    show countElList id (consNorm (normalizeNode n) (normalizeList l)) =
      countEl id n + countElList id l
    rw [countEl_consNorm, ihn, ihl]

theorem countElList_normalize (id : Nat) (l : List DNode) :
    countElList id (normalizeList l) = countElList id l := by
  induction l with
  | nil => rfl
  | cons n r ih =>
    show countElList id (consNorm (normalizeNode n) (normalizeList r)) =
      countEl id n + countElList id r
    rw [countEl_consNorm, countEl_normalize, ih]

theorem goodShape_normalize (id : Nat) (tag : String) (n : DNode)
    (h : goodShape id tag n = true) : normalizeNode n = n := by
  obtain ⟨fill, heq, hne⟩ := (goodShape_iff id tag n).1 h
  subst heq
  simp [normalizeNode, normalizeList, consNorm, hne]

theorem countGoodEl_normalize_ge (id : Nat) (tag : String) :
    ∀ n, countGoodEl id tag n ≤ countGoodEl id tag (normalizeNode n) := by
  intro n
  induction n using DNode.rec
    (motive_2 := fun l => countGoodElList id tag l ≤ countGoodElList id tag (normalizeList l)) with
  | text d => simp [normalizeNode]
  | elem i t cs ih =>
    simp only [normalizeNode, countGoodEl]
    have hsh : (if goodShape id tag (DNode.elem i t cs) then 1 else 0) ≤
        (if goodShape id tag (DNode.elem i t (normalizeList cs)) then 1 else 0) := by
      by_cases h : goodShape id tag (DNode.elem i t cs)
      · have h2 := goodShape_normalize id tag _ h
        simp only [normalizeNode] at h2
        rw [h2]
      · simp [h]
    omega
  | nil => simp [normalizeList]
  | cons n l ihn ihl =>
    show countGoodEl id tag n + countGoodElList id tag l ≤
      countGoodElList id tag (consNorm (normalizeNode n) (normalizeList l))
    rw [countGoodEl_consNorm]
    omega

theorem countGoodElList_normalize_ge (id : Nat) (tag : String) (l : List DNode) :
    countGoodElList id tag l ≤ countGoodElList id tag (normalizeList l) := by
  induction l with
  | nil => simp [normalizeList]
  | cons n r ih =>
    show countGoodEl id tag n + countGoodElList id tag r ≤
      countGoodElList id tag (consNorm (normalizeNode n) (normalizeList r))
    rw [countGoodEl_consNorm]
    have := countGoodEl_normalize_ge id tag n
    omega

theorem countEl_eq_zero_of_gt_max (id : Nat) : ∀ n, maxElemId n < id → countEl id n = 0 := by
  intro n
  induction n using DNode.rec
    (motive_2 := fun l => maxElemIdList l < id → countElList id l = 0) with
  | text d => intro h; rfl
  | elem i t cs ih =>
    intro h
    simp only [maxElemId, max_lt_iff] at h
    simp [countEl, ih h.2]
    omega
  | nil => rfl
  | cons n l ihn ihl =>
    rename_i h
    simp only [maxElemIdList, max_lt_iff] at h
    simp [countElList, ihn h.1, ihl h.2]

theorem jsIndexOf_neg_one_le : ∀ t s : Str, -1 ≤ jsIndexOf t s := by
  intro t s
  induction t with
  | nil =>
    rw [jsIndexOf]
    split <;> simp
  | cons c t ih =>
    rw [jsIndexOf]
    split
    · simp
    · simp only []
      split <;> omega

theorem jsIndexOf_nil (s : Str) :
    jsIndexOf [] s = if s.isPrefixOf [] then 0 else -1 := by
  rw [jsIndexOf]

theorem jsIndexOf_cons (c : Char) (t s : Str) :
    jsIndexOf (c :: t) s =
      if s.isPrefixOf (c :: t) then 0
      else if jsIndexOf t s < 0 then -1 else jsIndexOf t s + 1 := by
  rw [jsIndexOf]

theorem jsIndexOf_spec : ∀ (t s : Str), 0 ≤ jsIndexOf t s →
    s <+: t.drop (jsIndexOf t s).toNat ∧
      ∀ k < (jsIndexOf t s).toNat, ¬ s <+: t.drop k := by
  intro t
  induction t with
  | nil =>
    intro s h
    by_cases hp : List.isPrefixOf s ([] : Str) = true
    · simp only [jsIndexOf_nil, hp, if_true]
      refine ⟨by simpa using List.isPrefixOf_iff_prefix.1 hp, ?_⟩
      intro k hk
      simp at hk
    · simp only [jsIndexOf_nil, hp, Bool.false_eq_true, if_false] at h
      omega
  | cons c t ih =>
    intro s h
    by_cases hp : List.isPrefixOf s (c :: t) = true
    · simp only [jsIndexOf_cons, hp, if_true]
      refine ⟨by simpa using List.isPrefixOf_iff_prefix.1 hp, ?_⟩
      intro k hk
      simp at hk
    · have hcase : jsIndexOf (c :: t) s =
          if jsIndexOf t s < 0 then -1 else jsIndexOf t s + 1 := by
        simp only [jsIndexOf_cons, hp, Bool.false_eq_true, if_false]
      by_cases hr : jsIndexOf t s < 0
      · rw [hcase, if_pos hr] at h
        omega
      · push_neg at hr
        obtain ⟨hocc, hmin⟩ := ih s hr
        rw [hcase, if_neg (by omega)] at h ⊢
        have htn : ((jsIndexOf t s) + 1).toNat = (jsIndexOf t s).toNat + 1 := by omega
        rw [htn]
        constructor
        · simpa using hocc
        · intro k hk
          cases k with
          | zero =>
            simp only [List.drop_zero]
            intro hcon
            exact hp (List.isPrefixOf_iff_prefix.2 hcon)
          | succ k2 =>
            simpa using hmin k2 (by omega)

theorem prefix_drop_bound {t s : Str} {k : Nat} (hs : s ≠ []) (h : s <+: t.drop k) :
    k + s.length ≤ t.length := by
  have h1 : s.length ≤ t.length - k := by
    have := h.length_le
    simpa using this
  have h2 : k < t.length := by
    by_contra hc
    push_neg at hc
    rw [List.drop_eq_nil_of_le hc] at h
    exact hs (List.prefix_nil.1 h)
  omega

/-- Validity of a match descriptor relative to the flattened text: the
offsets are in range with positive width, the width is the matched
text's length, and the matched text is the text at that range. -/
def DescOk (text : Str) (d : MatchDesc) : Prop :=
  0 ≤ d.start ∧ d.start < d.endIdx ∧ d.endIdx ≤ (text.length : Int) ∧
  d.endIdx = d.start + d.matched.length ∧
  d.matched = (text.drop d.start.toNat).take d.matched.length

/-- Contract of a located match list: every descriptor is valid and
consecutive descriptors are ordered and non-overlapping. -/
def MsOk (text : Str) (ms : List MatchDesc) : Prop :=
  (∀ d ∈ ms, DescOk text d) ∧ List.Chain' (fun a b => a.endIdx ≤ b.start) ms

theorem getMatchIndexes_ok {text : Str} {pos : Nat} {r : RawMatch} {cg : Nat} {d : MatchDesc}
    (hr : RawOk text pos r) (h : getMatchIndexes (some r) cg = .ok d) :
    DescOk text d ∧ (pos : Int) ≤ d.start ∧ d.endIdx ≤ ((r.index + r.matched.length : Nat) : Int) := by
  obtain ⟨hpos, hlen, hsub, hgrp⟩ := hr
  rw [getMatchIndexes] at h
  split at h <;> rename_i hm0
  · exact (Except.noConfusion h)
  · split at h <;> rename_i hcg
    · split at h <;> rename_i g hg
      · exact (Except.noConfusion h)
      · split at h <;> rename_i hgne
        · exact (Except.noConfusion h)
        · simp only [Except.ok.injEq] at h
          subst h
          have hmem : some g ∈ r.groups := by
            unfold groupGet at hg
            split at hg <;> rename_i hh
            · exact (Option.noConfusion hg)
            · rw [hg] at hh
              exact List.get?_mem hh
          have hocc0 : 0 ≤ jsIndexOf r.matched g := hgrp _ hmem g rfl
          obtain ⟨hocc, -⟩ := jsIndexOf_spec r.matched g hocc0
          set k := (jsIndexOf r.matched g).toNat with hk
          have hkg : k + g.length ≤ r.matched.length := prefix_drop_bound hgne hocc
          have hgtake : g = (r.matched.drop k).take g.length :=
            List.prefix_iff_eq_take.1 hocc
          have h1 : r.matched.drop k =
              ((text.drop r.index).drop k).take (r.matched.length - k) := by
            conv_lhs => rw [hsub]
            rw [List.drop_take]
          have h2 : (text.drop r.index).drop k = text.drop (r.index + k) := by
            rw [List.drop_drop]
          have hsliceg : g = (text.drop (r.index + k)).take g.length := by
            conv_lhs => rw [hgtake]
            rw [h1, h2, List.take_take, Nat.min_eq_left (by omega)]
          have hglen : 0 < g.length := List.length_pos.2 hgne
          have hidx : ((r.index : Int) + jsIndexOf r.matched g) = ((r.index + k : Nat) : Int) := by
            push_cast
            omega
          refine ⟨⟨?_, ?_, ?_, ?_, ?_⟩, ?_, ?_⟩
          · simp only [hidx]
            positivity
          · simp only [hidx]
            push_cast
            omega
          · simp only [hidx]
            push_cast
            omega
          · rfl
          · simp only [hidx]
            rw [Int.toNat_ofNat]
            exact hsliceg
          · simp only [hidx]
            push_cast
            omega
          · simp only [hidx]
            push_cast
            omega
    · simp only [Except.ok.injEq] at h
      subst h
      have hm0h : r.matched ≠ [] := by
        intro hc
        exact hm0 (by simp [hc])
      have hl0 : 0 < r.matched.length := List.length_pos.2 hm0h
      refine ⟨⟨by positivity, by push_cast; omega, by push_cast; omega, rfl, ?_⟩,
        by push_cast; omega, by push_cast; omega⟩
      rw [Int.toNat_ofNat]
      exact hsub

theorem collectMatches_ok {rx : JsRegex} {text : Str} {cg : Nat} (he : EngineOk rx text) :
    ∀ fuel pos ds, collectMatches rx text cg fuel pos = .ok ds →
      (∀ d ∈ ds, DescOk text d ∧ (pos : Int) ≤ d.start) ∧
      List.Chain' (fun a b => a.endIdx ≤ b.start) ds := by
  intro fuel
  induction fuel with
  | zero =>
    intro pos ds h
    rw [collectMatches] at h
    simp only [Except.ok.injEq] at h
    subst h
    simp
  | succ fuel ih =>
    intro pos ds h
    rw [collectMatches] at h
    cases hexec : rx.exec text pos with
    | none =>
      rw [hexec] at h
      simp only [Except.ok.injEq] at h
      subst h
      simp
    | some m =>
      rw [hexec] at h
      dsimp only at h
      cases hgmi : getMatchIndexes (some m) cg with
      | error e =>
        rw [hgmi] at h
        dsimp only at h
        exact (Except.noConfusion h)
      | ok d =>
        rw [hgmi] at h
        dsimp only at h
        cases hrec : collectMatches rx text cg fuel (m.index + m.matched.length) with
        | error e =>
          rw [hrec] at h
          dsimp only at h
          exact (Except.noConfusion h)
        | ok ds2 =>
          rw [hrec] at h
          dsimp only at h
          simp only [Except.ok.injEq] at h
          subst h
          obtain ⟨hd, hdpos, hdend⟩ := getMatchIndexes_ok (he pos m hexec) hgmi
          obtain ⟨hall, hchain⟩ := ih (m.index + m.matched.length) ds2 hrec
          refine ⟨?_, ?_⟩
          · intro x hx
            rcases List.mem_cons.1 hx with hx | hx
            · subst hx
              exact ⟨hd, hdpos⟩
            · obtain ⟨hx1, hx2⟩ := hall x hx
              refine ⟨hx1, le_trans ?_ hx2⟩
              have := (he pos m hexec).1
              push_cast
              omega
          · rw [List.chain'_cons']
            refine ⟨?_, hchain⟩
            intro y hy
            have hymem : y ∈ ds2 := by
              cases ds2 with
              | nil => simp at hy
              | cons a l =>
                simp only [List.head?_cons, Option.mem_def, Option.some.injEq] at hy
                subst hy
                simp
            have := (hall y hymem).2
            omega

theorem locate_ok {rx : JsRegex} {text : Str} {cg : Nat} {ms : List MatchDesc}
    (he : EngineOk rx text) (h : locate rx text cg = .ok ms) : MsOk text ms := by
  rw [locate] at h
  split at h
  · obtain ⟨hall, hchain⟩ := collectMatches_ok he _ _ _ h
    exact ⟨fun d hd => (hall d hd).1, hchain⟩
  · cases hexec : rx.exec text 0 with
    | none =>
      rw [hexec] at h
      exact (Except.noConfusion h)
    | some r =>
      rw [hexec] at h
      cases hgmi : getMatchIndexes (some r) cg with
      | error e =>
        rw [hgmi] at h
        exact (Except.noConfusion h)
      | ok d =>
        rw [hgmi] at h
        simp only [Except.ok.injEq] at h
        subst h
        obtain ⟨hd, -, -⟩ := getMatchIndexes_ok (he 0 r hexec) hgmi
        exact ⟨by simpa using hd, by simp⟩

theorem chain_strengthen {text : Str} : ∀ ms : List MatchDesc,
    (∀ d ∈ ms, DescOk text d) →
    List.Chain' (fun a b => a.endIdx ≤ b.start) ms →
    List.Chain' (fun a b : MatchDesc => a.start < b.start ∧ a.endIdx ≤ b.start) ms := by
  intro ms
  induction ms with
  | nil => intro _ _; simp
  | cons a l ih =>
    intro hall hchain
    rw [List.chain'_cons'] at hchain ⊢
    refine ⟨?_, ih (fun d hd => hall d (by simp [hd])) hchain.2⟩
    intro y hy
    have h1 := hchain.1 y hy
    have h2 := (hall a (by simp)).2.1
    exact ⟨by omega, h1⟩

theorem literal_engineOk (pat : Str) (g : Bool) (text : Str) :
    EngineOk (literalRegex pat g) text := by
  intro pos r h
  simp only [literalRegex, literalExec] at h
  cases hf : findFrom text pat pos with
  | none =>
    rw [hf] at h
    exact (Option.noConfusion h)
  | some i =>
    rw [hf] at h
    simp only [Option.some.injEq] at h
    subst h
    have hpred := List.find?_some hf
    simp only [Bool.and_eq_true, decide_eq_true_eq] at hpred
    obtain ⟨hpos, hsub⟩ := hpred
    have hpre : pat <+: text.drop i := List.isPrefixOf_iff_prefix.1 hsub
    have htake : pat = (text.drop i).take pat.length := List.prefix_iff_eq_take.1 hpre
    have hblen : pat.length ≤ text.length - i := by
      simpa using hpre.length_le
    have hmem := List.mem_of_find?_eq_some hf
    have hir : i < text.length + 1 := List.mem_range.1 hmem
    refine ⟨hpos, ?_, htake, ?_⟩
    · show i + pat.length ≤ text.length
      omega
    · intro gp hgp
      simp at hgp

theorem consEdit_length {ns : List DNode} {es : List (List DNode)} (h : es ≠ []) :
    (consEdit ns es).length = es.length := by
  cases es with
  | nil => exact absurd rfl h
  | cons e es2 => simp [consEdit]

theorem jsTake_append_jsDrop (k : Int) (d : Str) : jsTake k d ++ jsDrop k d = d := by
  simp [jsTake, jsDrop]

theorem slice_shift {text d : Str} {a : Nat} (k j : Nat)
    (hd : d = (text.drop a).take d.length) (hkj : k + j ≤ d.length) :
    (d.drop k).take j = (text.drop (a + k)).take j := by
  conv_lhs => rw [hd]
  rw [List.drop_take, List.drop_drop, List.take_take, Nat.min_eq_left (by omega)]

theorem suffix_head {text d : Str} {a : Nat} {rest : List Str}
    (h : concatStr (d :: rest) = text.drop a) :
    d = (text.drop a).take d.length := by
  have : concatStr (d :: rest) = d ++ concatStr rest := rfl
  rw [this] at h
  rw [← h]
  simp

theorem suffix_step {text d : Str} {a : Nat} {rest : List Str}
    (ha : a ≤ text.length)
    (h : concatStr (d :: rest) = text.drop a) :
    a + d.length ≤ text.length ∧ concatStr rest = text.drop (a + d.length) := by
  have hcons : concatStr (d :: rest) = d ++ concatStr rest := rfl
  rw [hcons] at h
  constructor
  · have := congrArg List.length h
    simp at this
    omega
  · have := congrArg (List.drop d.length) h
    simpa [List.drop_drop, Nat.add_comm] using this

theorem suffix_mid {text d : Str} {a k : Nat} {rest : List Str}
    (hk : k ≤ d.length)
    (h : concatStr (d :: rest) = text.drop a) :
    d.drop k ++ concatStr rest = text.drop (a + k) := by
  have hcons : concatStr (d :: rest) = d ++ concatStr rest := rfl
  rw [hcons] at h
  have := congrArg (List.drop k) h
  rw [List.drop_append_of_le_length hk] at this
  rw [this, List.drop_drop, Nat.add_comm]

theorem walkTexts_queueNil (tag : String) (fuel : Nat) (st : SpliceState)
    (d : Str) (rest : List Str) (hq : st.matchQueue = []) :
    walkTexts tag (fuel + 1) st (d :: rest) = (st, identityEdits (d :: rest)) := by
  rw [walkTexts, hq]

theorem walkTexts_textsNil (tag : String) (fuel : Nat) (st : SpliceState) :
    walkTexts tag (fuel + 1) st [] = (st, []) := by
  rw [walkTexts]

theorem walkTexts_fuelZero (tag : String) (st : SpliceState) (texts : List Str) :
    walkTexts tag 0 st texts = (st, identityEdits texts) := by
  rw [walkTexts]

theorem walkTexts_endMulti (tag : String) (fuel : Nat) (st : SpliceState) (d : Str)
    (rest : List Str) (m : MatchDesc) (qs : List MatchDesc)
    (hq : st.matchQueue = m :: qs)
    (hcl : classifyVisit st.started st.atIndex d.length m = .endMulti) :
    walkTexts tag (fuel + 1) st (d :: rest) =
      (let endIdx := m.endIdx - st.atIndex
       let stM : SpliceState :=
         { atIndex := st.atIndex + (d.length : Int) - ((d.length : Int) - endIdx),
           matchQueue := qs, matchIndex := st.matchIndex + 1,
           started := false, pendingElems := [],
           reverts := st.reverts ++ [st.pendingElems ++ [st.nextId]],
           nextId := st.nextId + 1 }
       let res := walkTexts tag fuel stM (jsDrop endIdx d :: rest)
       (res.1, consEdit [mkReplacement tag (jsTake endIdx d) st.nextId] res.2)) := by
  rw [walkTexts, hq]
  dsimp only
  rw [hcl]

theorem walkTexts_endSingle_after (tag : String) (fuel : Nat) (st : SpliceState) (d : Str)
    (rest : List Str) (m : MatchDesc) (qs : List MatchDesc)
    (hq : st.matchQueue = m :: qs)
    (hcl : classifyVisit st.started st.atIndex d.length m = .endSingle)
    (hlt : m.endIdx - st.atIndex < (d.length : Int)) :
    walkTexts tag (fuel + 1) st (d :: rest) =
      (let startIdx := m.start - st.atIndex
       let endIdx := m.endIdx - st.atIndex
       let beforeL := if startIdx > 0 then [DNode.text (jsTake startIdx d)] else []
       let stS : SpliceState :=
         { atIndex := st.atIndex + (d.length : Int) - ((d.length : Int) - endIdx),
           matchQueue := qs, matchIndex := st.matchIndex + 1,
           started := false, pendingElems := [],
           reverts := st.reverts ++ [[st.nextId]],
           nextId := st.nextId + 1 }
       let res := walkTexts tag fuel stS (jsDrop endIdx d :: rest)
       (res.1, consEdit (beforeL ++ [mkReplacement tag m.matched st.nextId]) res.2)) := by
  rw [walkTexts, hq]
  dsimp only
  rw [hcl]
  dsimp only
  rw [if_pos hlt]

theorem walkTexts_endSingle_noAfter (tag : String) (fuel : Nat) (st : SpliceState) (d : Str)
    (rest : List Str) (m : MatchDesc) (qs : List MatchDesc)
    (hq : st.matchQueue = m :: qs)
    (hcl : classifyVisit st.started st.atIndex d.length m = .endSingle)
    (hlt : ¬ (m.endIdx - st.atIndex < (d.length : Int))) :
    walkTexts tag (fuel + 1) st (d :: rest) =
      (let startIdx := m.start - st.atIndex
       let endIdx := m.endIdx - st.atIndex
       let beforeL := if startIdx > 0 then [DNode.text (jsTake startIdx d)] else []
       let stS : SpliceState :=
         { atIndex := st.atIndex + (d.length : Int) - ((d.length : Int) - endIdx),
           matchQueue := qs, matchIndex := st.matchIndex + 1,
           started := false, pendingElems := [],
           reverts := st.reverts ++ [[st.nextId]],
           nextId := st.nextId + 1 }
       let res := walkTexts tag fuel stS rest
       (res.1, (beforeL ++ [mkReplacement tag m.matched st.nextId]) :: res.2)) := by
  rw [walkTexts, hq]
  dsimp only
  rw [hcl]
  dsimp only
  rw [if_neg hlt]

theorem walkTexts_innerHit (tag : String) (fuel : Nat) (st : SpliceState) (d : Str)
    (rest : List Str) (m : MatchDesc) (qs : List MatchDesc)
    (hq : st.matchQueue = m :: qs)
    (hcl : classifyVisit st.started st.atIndex d.length m = .innerHit) :
    walkTexts tag (fuel + 1) st (d :: rest) =
      (let stI : SpliceState :=
         { st with atIndex := st.atIndex + (d.length : Int),
                   pendingElems := st.pendingElems ++ [st.nextId],
                   nextId := st.nextId + 1 }
       let res := walkTexts tag fuel stI rest
       (res.1, [mkReplacement tag d st.nextId] :: res.2)) := by
  rw [walkTexts, hq]
  dsimp only
  rw [hcl]

theorem walkTexts_startHit (tag : String) (fuel : Nat) (st : SpliceState) (d : Str)
    (rest : List Str) (m : MatchDesc) (qs : List MatchDesc)
    (hq : st.matchQueue = m :: qs)
    (hcl : classifyVisit st.started st.atIndex d.length m = .startHit) :
    walkTexts tag (fuel + 1) st (d :: rest) =
      (let startIdx := m.start - st.atIndex
       let stS : SpliceState :=
         { st with atIndex := st.atIndex + (d.length : Int), started := true,
                   pendingElems := [st.nextId],
                   nextId := st.nextId + 1 }
       let res := walkTexts tag fuel stS rest
       (res.1, [DNode.text (jsTake startIdx d),
                mkReplacement tag (jsDrop startIdx d) st.nextId] :: res.2)) := by
  rw [walkTexts, hq]
  dsimp only
  rw [hcl]

theorem walkTexts_skip (tag : String) (fuel : Nat) (st : SpliceState) (d : Str)
    (rest : List Str) (m : MatchDesc) (qs : List MatchDesc)
    (hq : st.matchQueue = m :: qs)
    (hcl : classifyVisit st.started st.atIndex d.length m = .skip) :
    walkTexts tag (fuel + 1) st (d :: rest) =
      (let stK : SpliceState := { st with atIndex := st.atIndex + (d.length : Int) }
       let res := walkTexts tag fuel stK rest
       (res.1, [DNode.text d] :: res.2)) := by
  rw [walkTexts, hq]
  dsimp only
  rw [hcl]

theorem classify_endMulti {a len : Int} {m : MatchDesc} (hend : m.endIdx ≤ a + len) :
    classifyVisit true a len m = .endMulti := by
  simp [classifyVisit, hend]

theorem classify_endSingle {a len : Int} {m : MatchDesc} (hend : m.endIdx ≤ a + len)
    (hgt : m.start < a + len) : classifyVisit false a len m = .endSingle := by
  simp [classifyVisit, hend, hgt]

theorem classify_innerHit {a len : Int} {m : MatchDesc} (hend : ¬ m.endIdx ≤ a + len) :
    classifyVisit true a len m = .innerHit := by
  simp [classifyVisit, hend]

theorem classify_startHit {a len : Int} {m : MatchDesc} (hend : ¬ m.endIdx ≤ a + len)
    (hgt : m.start < a + len) : classifyVisit false a len m = .startHit := by
  simp [classifyVisit, hend, hgt]

theorem classify_skip {a len : Int} {m : MatchDesc} (hend : ¬ m.endIdx ≤ a + len)
    (hgt : ¬ m.start < a + len) : classifyVisit false a len m = .skip := by
  simp [classifyVisit, hend, hgt]

theorem countGoodElList_le_countElList (id : Nat) (tag : String) (l : List DNode) :
    countGoodElList id tag l ≤ countElList id l := by
  induction l with
  | nil => simp [countGoodElList, countElList]
  | cons n r ih =>
    have := countGoodEl_le_countEl id tag n
    simp only [countGoodElList, countElList]
    omega

theorem countGoodElEdits_le_countElEdits (id : Nat) (tag : String) (es : List (List DNode)) :
    countGoodElEdits id tag es ≤ countElEdits id es := by
  induction es with
  | nil => simp [countGoodElEdits, countElEdits]
  | cons e r ih =>
    have := countGoodElList_le_countElList id tag e
    simp only [countGoodElEdits, countElEdits]
    omega

theorem walk_identity_conclusions (tag : String) (st : SpliceState) (texts : List Str)
    (P : Prop) :
    (identityEdits texts).length = texts.length ∧
    flattenEdits (identityEdits texts) = concatStr texts ∧
    st.nextId ≤ st.nextId ∧
    (∀ id, countElEdits id (identityEdits texts) =
      if st.nextId ≤ id ∧ id < st.nextId then 1 else 0) ∧
    (P → ∀ id, st.nextId ≤ id → id < st.nextId →
      countGoodElEdits id tag (identityEdits texts) = 1) ∧
    (∃ newActs, st.reverts = st.reverts ++ newActs ∧
      newActs.flatten.Sublist (st.pendingElems ++
        List.range' st.nextId (st.nextId - st.nextId))) := by
  refine ⟨length_identityEdits texts, flattenEdits_identity texts, le_refl _, ?_, ?_, ?_⟩
  · intro id
    rw [countElEdits_identity, if_neg (by omega)]
  · intro _ id h1 h2
    omega
  · exact ⟨[], by simp, by simp⟩

theorem flattenEdits_cons (e : List DNode) (es : List (List DNode)) :
    flattenEdits (e :: es) = getTextList e ++ flattenEdits es := rfl

theorem countElEdits_cons (id : Nat) (e : List DNode) (es : List (List DNode)) :
    countElEdits id (e :: es) = countElList id e + countElEdits id es := rfl

theorem countGoodElEdits_cons (id : Nat) (tag : String) (e : List DNode)
    (es : List (List DNode)) :
    countGoodElEdits id tag (e :: es) =
      countGoodElList id tag e + countGoodElEdits id tag es := rfl

theorem concatStr_cons (t : Str) (ts : List Str) :
    concatStr (t :: ts) = t ++ concatStr ts := rfl

theorem getText_text (d0 : Str) : getText (DNode.text d0) = d0 := rfl

theorem countEl_text (id : Nat) (d0 : Str) : countEl id (DNode.text d0) = 0 := rfl

theorem countGoodEl_text (id : Nat) (tag : String) (d0 : Str) :
    countGoodEl id tag (DNode.text d0) = 0 := rfl

theorem sublist_range_cons0 {b F : Nat} {l : List Nat} (hF : b + 1 ≤ F)
    (hsub : l.Sublist (List.range' (b + 1) (F - (b + 1)))) :
    (b :: l).Sublist (List.range' b (F - b)) := by
  have hsplit : F - b = (F - (b + 1)) + 1 := by omega
  rw [hsplit, List.range'_succ]
  exact hsub.cons₂ b

theorem sublist_range_cons {p : List Nat} {b F : Nat} {l : List Nat}
    (hF : b + 1 ≤ F) (hsub : l.Sublist (List.range' (b + 1) (F - (b + 1)))) :
    (p ++ b :: l).Sublist (p ++ List.range' b (F - b)) :=
  (sublist_range_cons0 hF hsub).append_left p

theorem sublist_range_extend {p : List Nat} {b F : Nat} {l : List Nat}
    (hF : b + 1 ≤ F) (hsub : l.Sublist ((p ++ [b]) ++ List.range' (b + 1) (F - (b + 1)))) :
    l.Sublist (p ++ List.range' b (F - b)) := by
  have heq : (p ++ [b]) ++ List.range' (b + 1) (F - (b + 1)) =
      p ++ List.range' b (F - b) := by
    rw [List.append_assoc]
    congr 1
    have hsplit : F - b = (F - (b + 1)) + 1 := by omega
    rw [hsplit, List.range'_succ]
    rfl
  rwa [heq] at hsub

/-- Main invariant of the splicing walk: over any suffix of the traversal
satisfying the walk invariants, the edits preserve the flattened text,
produce exactly one replacement element per fresh id (all of the
undoable shape when no empty Text node lies strictly inside a match),
and the recorded revert actions reference only pending and freshly
created replacement elements, each at most once. -/
theorem walkTexts_main (tag : String) (text : Str) :
    ∀ (fuel : Nat) (st : SpliceState) (texts : List Str),
      st.matchQueue.length + texts.length ≤ fuel →
      0 ≤ st.atIndex →
      st.atIndex.toNat ≤ text.length →
      concatStr texts = text.drop st.atIndex.toNat →
      (∀ d ∈ st.matchQueue, DescOk text d) →
      List.Chain' (fun x y => x.endIdx ≤ y.start) st.matchQueue →
      (∀ m, st.matchQueue.head? = some m →
        if st.started then st.atIndex < m.endIdx else st.atIndex ≤ m.start) →
      (st.started = false → st.pendingElems = []) →
      (walkTexts tag fuel st texts).2.length = texts.length ∧
      flattenEdits (walkTexts tag fuel st texts).2 = concatStr texts ∧
      st.nextId ≤ (walkTexts tag fuel st texts).1.nextId ∧
      (∀ id, countElEdits id (walkTexts tag fuel st texts).2 =
        if st.nextId ≤ id ∧ id < (walkTexts tag fuel st texts).1.nextId then 1 else 0) ∧
      ((if st.started then (∀ t ∈ texts, t ≠ []) else (∀ t ∈ texts.drop 1, t ≠ [])) →
        ∀ id, st.nextId ≤ id → id < (walkTexts tag fuel st texts).1.nextId →
          countGoodElEdits id tag (walkTexts tag fuel st texts).2 = 1) ∧
      (∃ newActs, (walkTexts tag fuel st texts).1.reverts = st.reverts ++ newActs ∧
        newActs.flatten.Sublist (st.pendingElems ++
          List.range' st.nextId ((walkTexts tag fuel st texts).1.nextId - st.nextId))) := by
  intro fuel
  induction fuel with
  | zero =>
    intro st texts hfuel h0 h1 h2 h3 h4 h5 h6
    rw [walkTexts_fuelZero]
    exact walk_identity_conclusions tag st texts _
  | succ fuel ih =>
    intro st texts hfuel h0 h1 h2 h3 h4 h5 h6
    cases texts with
    | nil =>
      rw [walkTexts_textsNil]
      have h := walk_identity_conclusions tag st ([] : List Str)
        (if st.started then (∀ t ∈ ([] : List Str), t ≠ [])
         else (∀ t ∈ ([] : List Str).drop 1, t ≠ []))
      simpa [identityEdits] using h
    | cons d rest =>
      cases hq : st.matchQueue with
      | nil =>
        rw [walkTexts_queueNil tag fuel st d rest hq]
        exact walk_identity_conclusions tag st (d :: rest) _
      | cons m qs =>
        have hmmem : m ∈ st.matchQueue := by
          rw [hq]
          exact List.mem_cons_self m qs
        obtain ⟨hms0, hmse, hmeL, hmlen, hmsub⟩ := h3 m hmmem
        have hhead : st.matchQueue.head? = some m := by rw [hq]; rfl
        have h5m := h5 m hhead
        have hchain := h4
        rw [hq, List.chain'_cons'] at hchain
        obtain ⟨hchainHead, hchainTail⟩ := hchain
        have h3q : ∀ x ∈ qs, DescOk text x := fun x hx =>
          h3 x (by rw [hq]; exact List.mem_cons_of_mem m hx)
        have hdslice : d = (text.drop st.atIndex.toNat).take d.length := suffix_head h2
        obtain ⟨hstep1, hstep2⟩ := suffix_step h1 h2
        have hfuel2 : qs.length + rest.length + 1 ≤ fuel := by
          rw [hq] at hfuel
          simp only [List.length_cons] at hfuel
          omega
        by_cases hend : m.endIdx ≤ st.atIndex + (d.length : Int)
        · cases hst : st.started with
          | true =>
            -- endMulti: this node resolves the end of a multi-node match
            rw [hst] at h5m
            simp only [if_true] at h5m
            have hclassify : classifyVisit st.started st.atIndex (d.length) m = .endMulti := by
              rw [hst]
              exact classify_endMulti hend
            rw [walkTexts_endMulti tag fuel st d rest m qs hq hclassify]
            dsimp only
            have hEtoNat : (m.endIdx - st.atIndex).toNat =
                m.endIdx.toNat - st.atIndex.toNat := by omega
            have hjsDropEq : jsDrop (m.endIdx - st.atIndex) d =
                d.drop (m.endIdx.toNat - st.atIndex.toNat) := by
              rw [jsDrop, hEtoNat]
            have hjsTakeEq : jsTake (m.endIdx - st.atIndex) d =
                d.take (m.endIdx.toNat - st.atIndex.toNat) := by
              rw [jsTake, hEtoNat]
            obtain ⟨RW1, RW2, RW0, RW3, RW4, RW5⟩ :=
              ih { atIndex := st.atIndex + (d.length : Int) -
                     ((d.length : Int) - (m.endIdx - st.atIndex)),
                   matchQueue := qs, matchIndex := st.matchIndex + 1, started := false,
                   pendingElems := [],
                   reverts := st.reverts ++ [st.pendingElems ++ [st.nextId]],
                   nextId := st.nextId + 1 }
                (jsDrop (m.endIdx - st.atIndex) d :: rest)
                (by dsimp only; simp only [List.length_cons]; omega)
                (by dsimp only; omega)
                (by dsimp only; omega)
                (by
                  dsimp only
                  rw [hjsDropEq]
                  have hk : m.endIdx.toNat - st.atIndex.toNat ≤ d.length := by omega
                  have hs := suffix_mid hk h2
                  have harith : st.atIndex.toNat + (m.endIdx.toNat - st.atIndex.toNat) =
                      m.endIdx.toNat := by omega
                  rw [harith] at hs
                  have harith2 : (st.atIndex + (d.length : Int) -
                      ((d.length : Int) - (m.endIdx - st.atIndex))).toNat =
                      m.endIdx.toNat := by omega
                  rw [harith2]
                  exact hs)
                (by dsimp only; exact h3q)
                (by dsimp only; exact hchainTail)
                (by
                  dsimp only
                  intro m2 hm2
                  have hy := hchainHead m2 (by rw [Option.mem_def]; exact hm2)
                  rw [if_neg (show ¬ ((false : Bool) = true) by simp)]
                  omega)
                (by intro _; rfl)
            dsimp only at RW0 RW3
            refine ⟨?_, ?_, ?_, ?_, ?_, ?_⟩
            · have hne2 := List.ne_nil_of_length_pos (lt_of_lt_of_eq (by simp) RW1.symm)
              rw [consEdit_length hne2, RW1]
              simp
            · rw [flattenEdits_consEdit, RW2]
              have hgt1 : getTextList [mkReplacement tag (jsTake (m.endIdx - st.atIndex) d)
                  st.nextId] = jsTake (m.endIdx - st.atIndex) d := by
                simp [getTextList, getText_mkReplacement]
              rw [hgt1, concatStr_cons, ← List.append_assoc, jsTake_append_jsDrop]
              rfl
            · omega
            · intro id
              rw [countElEdits_consEdit]
              have helB : countElList id [mkReplacement tag (jsTake (m.endIdx - st.atIndex) d)
                  st.nextId] = if st.nextId = id then 1 else 0 := by
                simp [countElList, countEl_mkReplacement]
              rw [helB, RW3 id]
              split_ifs <;> omega
            · intro hne id hid1 hid2
              replace hne : ∀ t ∈ d :: rest, t ≠ [] := by exact hne
              have hneRest : ∀ t ∈ rest, t ≠ [] := fun t ht =>
                hne t (List.mem_cons_of_mem d ht)
              rw [countGoodElEdits_consEdit]
              have hdlen : 0 < d.length := by omega
              have hfill : jsTake (m.endIdx - st.atIndex) d ≠ [] := by
                rw [hjsTakeEq, ne_eq, List.take_eq_nil_iff]
                push_neg
                exact ⟨by omega, List.ne_nil_of_length_pos hdlen⟩
              have hgB : countGoodElList id tag [mkReplacement tag
                  (jsTake (m.endIdx - st.atIndex) d) st.nextId] =
                  if st.nextId = id then 1 else 0 := by
                simp [countGoodElList, countGoodEl_mkReplacement _ _ _ _ hfill]
              rw [hgB]
              rcases Nat.lt_or_ge st.nextId id with hlt | hge
              · have hval := RW4 (by exact hneRest) id (by dsimp only; omega) hid2
                rw [hval, if_neg (by omega)]
              · have heqid : st.nextId = id := by omega
                have hle := le_trans (countGoodElEdits_le_countElEdits id tag _)
                  (le_of_eq (RW3 id))
                rw [if_neg (by omega)] at hle
                rw [if_pos heqid]
                omega
            · obtain ⟨newActs2, hrev2, hsub2⟩ := RW5
              dsimp only at hrev2 hsub2
              refine ⟨(st.pendingElems ++ [st.nextId]) :: newActs2, ?_, ?_⟩
              · rw [hrev2]
                simp [List.append_assoc]
              · simp only [List.flatten_cons, List.append_assoc, List.singleton_append]
                exact sublist_range_cons RW0 (by simpa using hsub2)
          | false =>
            -- endSingle: start and end resolved at this node
            rw [hst] at h5m
            simp only [Bool.false_eq_true, if_false] at h5m
            have hgt : m.start < st.atIndex + (d.length : Int) := lt_of_lt_of_le hmse hend
            have hclassify : classifyVisit st.started st.atIndex (d.length) m = .endSingle := by
              rw [hst]
              exact classify_endSingle hend hgt
            have hpend : st.pendingElems = [] := h6 hst
            have hmlenN : m.matched.length = m.endIdx.toNat - m.start.toNat := by omega
            have hmmatched : m.matched =
                (d.drop (m.start.toNat - st.atIndex.toNat)).take
                  (m.endIdx.toNat - m.start.toNat) := by
              have hss := slice_shift (m.start.toNat - st.atIndex.toNat)
                (m.endIdx.toNat - m.start.toNat) hdslice (by omega)
              have harith : st.atIndex.toNat + (m.start.toNat - st.atIndex.toNat) =
                  m.start.toNat := by omega
              rw [harith] at hss
              rw [hss, ← hmlenN]
              exact hmsub
            have hdecomp : d = d.take (m.start.toNat - st.atIndex.toNat) ++ m.matched ++
                d.drop (m.endIdx.toNat - st.atIndex.toNat) := by
              have hp1 : d.take (m.start.toNat - st.atIndex.toNat) ++
                  d.drop (m.start.toNat - st.atIndex.toNat) = d :=
                List.take_append_drop _ d
              have hp2 : (d.drop (m.start.toNat - st.atIndex.toNat)).drop
                  (m.endIdx.toNat - m.start.toNat) =
                  d.drop (m.endIdx.toNat - st.atIndex.toNat) := by
                rw [List.drop_drop]
                congr 1
                omega
              have hp3 : (d.drop (m.start.toNat - st.atIndex.toNat)).take
                  (m.endIdx.toNat - m.start.toNat) ++
                  (d.drop (m.start.toNat - st.atIndex.toNat)).drop
                    (m.endIdx.toNat - m.start.toNat) =
                  d.drop (m.start.toNat - st.atIndex.toNat) :=
                List.take_append_drop _ _
              rw [hp2] at hp3
              rw [← hmmatched] at hp3
              rw [List.append_assoc, hp3]
              exact hp1.symm
            have hbeforeText : getTextList
                (if m.start - st.atIndex > 0 then
                  [DNode.text (jsTake (m.start - st.atIndex) d)] else []) =
                d.take (m.start.toNat - st.atIndex.toNat) := by
              split_ifs with hpos
              · have hsn : (m.start - st.atIndex).toNat =
                    m.start.toNat - st.atIndex.toNat := by omega
                simp [getTextList, getText, jsTake, hsn]
              · have hzero : m.start.toNat - st.atIndex.toNat = 0 := by omega
                rw [hzero]
                simp [getTextList]
            have hmatchedNe : m.matched ≠ [] := by
              apply List.ne_nil_of_length_pos
              omega
            have hcountB : ∀ id, countElList id
                ((if m.start - st.atIndex > 0 then
                  [DNode.text (jsTake (m.start - st.atIndex) d)] else []) ++
                  [mkReplacement tag m.matched st.nextId]) =
                if st.nextId = id then 1 else 0 := by
              intro id
              rw [countElList_append]
              have hB1 : countElList id [mkReplacement tag m.matched st.nextId] =
                  if st.nextId = id then 1 else 0 := by
                simp [countElList, countEl_mkReplacement]
              have hB2 : countElList id (if m.start - st.atIndex > 0 then
                  [DNode.text (jsTake (m.start - st.atIndex) d)] else []) = 0 := by
                split_ifs <;> simp [countElList, countEl]
              rw [hB1, hB2]
              simp
            have hgoodB : ∀ id, countGoodElList id tag
                ((if m.start - st.atIndex > 0 then
                  [DNode.text (jsTake (m.start - st.atIndex) d)] else []) ++
                  [mkReplacement tag m.matched st.nextId]) =
                if st.nextId = id then 1 else 0 := by
              intro id
              rw [countGoodElList_append]
              have hB1 : countGoodElList id tag [mkReplacement tag m.matched st.nextId] =
                  if st.nextId = id then 1 else 0 := by
                simp [countGoodElList, countGoodEl_mkReplacement _ _ _ _ hmatchedNe]
              have hB2 : countGoodElList id tag (if m.start - st.atIndex > 0 then
                  [DNode.text (jsTake (m.start - st.atIndex) d)] else []) = 0 := by
                split_ifs <;> simp [countGoodElList, countGoodEl]
              rw [hB1, hB2]
              simp
            have htextB : getTextList
                ((if m.start - st.atIndex > 0 then
                  [DNode.text (jsTake (m.start - st.atIndex) d)] else []) ++
                  [mkReplacement tag m.matched st.nextId]) =
                d.take (m.start.toNat - st.atIndex.toNat) ++ m.matched := by
              rw [getTextList_append, hbeforeText]
              simp [getTextList, getText_mkReplacement]
            by_cases hlt : m.endIdx - st.atIndex < (d.length : Int)
            · -- trailing text remains and is re-walked
              rw [walkTexts_endSingle_after tag fuel st d rest m qs hq hclassify hlt]
              dsimp only
              have hEtoNat : (m.endIdx - st.atIndex).toNat =
                  m.endIdx.toNat - st.atIndex.toNat := by omega
              have hjsDropEq : jsDrop (m.endIdx - st.atIndex) d =
                  d.drop (m.endIdx.toNat - st.atIndex.toNat) := by
                rw [jsDrop, hEtoNat]
              obtain ⟨RW1, RW2, RW0, RW3, RW4, RW5⟩ :=
                ih { atIndex := st.atIndex + (d.length : Int) -
                       ((d.length : Int) - (m.endIdx - st.atIndex)),
                     matchQueue := qs, matchIndex := st.matchIndex + 1, started := false,
                     pendingElems := [],
                     reverts := st.reverts ++ [[st.nextId]],
                     nextId := st.nextId + 1 }
                  (jsDrop (m.endIdx - st.atIndex) d :: rest)
                  (by dsimp only; simp only [List.length_cons]; omega)
                  (by dsimp only; omega)
                  (by dsimp only; omega)
                  (by
                    dsimp only
                    rw [hjsDropEq]
                    have hk : m.endIdx.toNat - st.atIndex.toNat ≤ d.length := by omega
                    have hs := suffix_mid hk h2
                    have harith : st.atIndex.toNat + (m.endIdx.toNat - st.atIndex.toNat) =
                        m.endIdx.toNat := by omega
                    rw [harith] at hs
                    have harith2 : (st.atIndex + (d.length : Int) -
                        ((d.length : Int) - (m.endIdx - st.atIndex))).toNat =
                        m.endIdx.toNat := by omega
                    rw [harith2]
                    exact hs)
                  (by dsimp only; exact h3q)
                  (by dsimp only; exact hchainTail)
                  (by
                    dsimp only
                    intro m2 hm2
                    have hy := hchainHead m2 (by rw [Option.mem_def]; exact hm2)
                    rw [if_neg (show ¬ ((false : Bool) = true) by simp)]
                    omega)
                  (by intro _; rfl)
              dsimp only at RW0 RW3
              refine ⟨?_, ?_, ?_, ?_, ?_, ?_⟩
              · have hne2 := List.ne_nil_of_length_pos (lt_of_lt_of_eq (by simp) RW1.symm)
                rw [consEdit_length hne2, RW1]
                simp
              · rw [flattenEdits_consEdit, RW2, htextB, concatStr_cons, hjsDropEq]
                show (d.take (m.start.toNat - st.atIndex.toNat) ++ m.matched) ++
                    (d.drop (m.endIdx.toNat - st.atIndex.toNat) ++ concatStr rest) =
                    concatStr (d :: rest)
                rw [concatStr_cons]
                conv_rhs => rw [hdecomp]
                simp [List.append_assoc]
              · omega
              · intro id
                rw [countElEdits_consEdit, hcountB id, RW3 id]
                split_ifs <;> omega
              · intro hne id hid1 hid2
                replace hne : ∀ t ∈ (d :: rest).drop 1, t ≠ [] := by exact hne
                have hneRest : ∀ t ∈ rest, t ≠ [] := fun t ht => hne t ht
                rw [countGoodElEdits_consEdit, hgoodB id]
                rcases Nat.lt_or_ge st.nextId id with hlt2 | hge
                · have hval := RW4 (by exact hneRest) id (by dsimp only; omega) hid2
                  rw [hval, if_neg (by omega)]
                · have heqid : st.nextId = id := by omega
                  have hle := le_trans (countGoodElEdits_le_countElEdits id tag _)
                    (le_of_eq (RW3 id))
                  rw [if_neg (by omega)] at hle
                  rw [if_pos heqid]
                  omega
              · obtain ⟨newActs2, hrev2, hsub2⟩ := RW5
                dsimp only at hrev2 hsub2
                refine ⟨[st.nextId] :: newActs2, ?_, ?_⟩
                · rw [hrev2]
                  simp [List.append_assoc]
                · simp only [List.flatten_cons, List.singleton_append]
                  rw [hpend]
                  simp only [List.nil_append]
                  exact sublist_range_cons0 RW0 (by simpa using hsub2)
            · -- the match ends exactly at the node boundary: no trailing text
              rw [walkTexts_endSingle_noAfter tag fuel st d rest m qs hq hclassify hlt]
              dsimp only
              have hEeq : m.endIdx.toNat - st.atIndex.toNat = d.length := by omega
              obtain ⟨RW1, RW2, RW0, RW3, RW4, RW5⟩ :=
                ih { atIndex := st.atIndex + (d.length : Int) -
                       ((d.length : Int) - (m.endIdx - st.atIndex)),
                     matchQueue := qs, matchIndex := st.matchIndex + 1, started := false,
                     pendingElems := [],
                     reverts := st.reverts ++ [[st.nextId]],
                     nextId := st.nextId + 1 }
                  rest
                  (by dsimp only; omega)
                  (by dsimp only; omega)
                  (by dsimp only; omega)
                  (by
                    dsimp only
                    have harith2 : (st.atIndex + (d.length : Int) -
                        ((d.length : Int) - (m.endIdx - st.atIndex))).toNat =
                        st.atIndex.toNat + d.length := by omega
                    rw [harith2]
                    exact hstep2)
                  (by dsimp only; exact h3q)
                  (by dsimp only; exact hchainTail)
                  (by
                    dsimp only
                    intro m2 hm2
                    have hy := hchainHead m2 (by rw [Option.mem_def]; exact hm2)
                    rw [if_neg (show ¬ ((false : Bool) = true) by simp)]
                    omega)
                  (by intro _; rfl)
              dsimp only at RW0 RW3
              refine ⟨?_, ?_, ?_, ?_, ?_, ?_⟩
              · simp only [List.length_cons, RW1]
              · rw [flattenEdits_cons, RW2, htextB, concatStr_cons]
                conv_rhs => rw [hdecomp]
                have hdropnil : d.drop (m.endIdx.toNat - st.atIndex.toNat) = [] := by
                  rw [hEeq]
                  simp
                rw [hdropnil]
                simp [List.append_assoc]
              · omega
              · intro id
                rw [countElEdits_cons, hcountB id, RW3 id]
                split_ifs <;> omega
              · intro hne id hid1 hid2
                replace hne : ∀ t ∈ (d :: rest).drop 1, t ≠ [] := by exact hne
                have hneRest : ∀ t ∈ rest, t ≠ [] := fun t ht => hne t ht
                have hneTail : ∀ t ∈ rest.drop 1, t ≠ [] := fun t ht =>
                  hneRest t (List.mem_of_mem_drop ht)
                rw [countGoodElEdits_cons, hgoodB id]
                rcases Nat.lt_or_ge st.nextId id with hlt2 | hge
                · have hval := RW4 (by exact hneTail) id (by dsimp only; omega) hid2
                  rw [hval, if_neg (by omega)]
                · have heqid : st.nextId = id := by omega
                  have hle := le_trans (countGoodElEdits_le_countElEdits id tag _)
                    (le_of_eq (RW3 id))
                  rw [if_neg (by omega)] at hle
                  rw [if_pos heqid]
                  omega
              · obtain ⟨newActs2, hrev2, hsub2⟩ := RW5
                dsimp only at hrev2 hsub2
                refine ⟨[st.nextId] :: newActs2, ?_, ?_⟩
                · rw [hrev2]
                  simp [List.append_assoc]
                · simp only [List.flatten_cons, List.singleton_append]
                  rw [hpend]
                  simp only [List.nil_append]
                  exact sublist_range_cons0 RW0 (by simpa using hsub2)
        · cases hst : st.started with
          | true =>
            -- innerHit: a node strictly inside the match span
            rw [hst] at h5m
            simp only [if_true] at h5m
            have hclassify : classifyVisit st.started st.atIndex (d.length) m = .innerHit := by
              rw [hst]
              exact classify_innerHit hend
            rw [walkTexts_innerHit tag fuel st d rest m qs hq hclassify]
            dsimp only
            obtain ⟨RW1, RW2, RW0, RW3, RW4, RW5⟩ :=
              ih { st with atIndex := st.atIndex + (d.length : Int),
                           pendingElems := st.pendingElems ++ [st.nextId],
                           nextId := st.nextId + 1 }
                rest
                (by dsimp only; rw [hq]; simp only [List.length_cons]; omega)
                (by dsimp only; omega)
                (by dsimp only; omega)
                (by
                  dsimp only
                  have harith2 : (st.atIndex + (d.length : Int)).toNat =
                      st.atIndex.toNat + d.length := by omega
                  rw [harith2]
                  exact hstep2)
                (by dsimp only; exact h3)
                (by dsimp only; exact h4)
                (by
                  dsimp only
                  intro m2 hm2
                  rw [hhead] at hm2
                  simp only [Option.some.injEq] at hm2
                  subst hm2
                  rw [if_pos hst]
                  omega)
                (by
                  intro hcon
                  dsimp only at hcon
                  rw [hst] at hcon
                  exact absurd hcon (by simp))
            dsimp only at RW0 RW3
            refine ⟨?_, ?_, ?_, ?_, ?_, ?_⟩
            · simp only [List.length_cons, RW1]
            · rw [flattenEdits_cons, RW2]
              have h1g : getTextList [mkReplacement tag d st.nextId] = d := by
                simp [getTextList, getText_mkReplacement]
              rw [h1g]
              rfl
            · omega
            · intro id
              rw [countElEdits_cons, RW3 id]
              have hcel : countElList id [mkReplacement tag d st.nextId] =
                  if st.nextId = id then 1 else 0 := by
                simp [countElList, countEl_mkReplacement]
              rw [hcel]
              split_ifs <;> omega
            · intro hne id hid1 hid2
              replace hne : ∀ t ∈ d :: rest, t ≠ [] := by exact hne
              have hdne : d ≠ [] := hne d (by simp)
              have hneRest : ∀ t ∈ rest, t ≠ [] := fun t ht =>
                hne t (List.mem_cons_of_mem d ht)
              rw [countGoodElEdits_cons]
              have hgI : countGoodElList id tag [mkReplacement tag d st.nextId] =
                  if st.nextId = id then 1 else 0 := by
                simp [countGoodElList, countGoodEl_mkReplacement _ _ _ _ hdne]
              rw [hgI]
              rcases Nat.lt_or_ge st.nextId id with hlt2 | hge
              · have harg : (if st.started = true then (∀ t ∈ rest, t ≠ [])
                    else (∀ t ∈ rest.drop 1, t ≠ [])) := by
                  rw [hst]
                  exact hneRest
                have hval := RW4 (by exact harg) id (by dsimp only; omega) hid2
                rw [hval, if_neg (by omega)]
              · have heqid : st.nextId = id := by omega
                have hle := le_trans (countGoodElEdits_le_countElEdits id tag _)
                  (le_of_eq (RW3 id))
                rw [if_neg (by omega)] at hle
                rw [if_pos heqid]
                omega
            · obtain ⟨newActs2, hrev2, hsub2⟩ := RW5
              dsimp only at hrev2 hsub2
              exact ⟨newActs2, hrev2, sublist_range_extend RW0 hsub2⟩
          | false =>
            rw [hst] at h5m
            simp only [Bool.false_eq_true, if_false] at h5m
            by_cases hgt : m.start < st.atIndex + (d.length : Int)
            · -- startHit: the start of a multi-node match is resolved here
              have hclassify : classifyVisit st.started st.atIndex (d.length) m =
                  .startHit := by
                rw [hst]
                exact classify_startHit hend hgt
              rw [walkTexts_startHit tag fuel st d rest m qs hq hclassify]
              dsimp only
              have hStoNat : (m.start - st.atIndex).toNat =
                  m.start.toNat - st.atIndex.toNat := by omega
              have hpend : st.pendingElems = [] := h6 hst
              obtain ⟨RW1, RW2, RW0, RW3, RW4, RW5⟩ :=
                ih { st with atIndex := st.atIndex + (d.length : Int), started := true,
                             pendingElems := [st.nextId],
                             nextId := st.nextId + 1 }
                  rest
                  (by dsimp only; rw [hq]; simp only [List.length_cons]; omega)
                  (by dsimp only; omega)
                  (by dsimp only; omega)
                  (by
                    dsimp only
                    have harith2 : (st.atIndex + (d.length : Int)).toNat =
                        st.atIndex.toNat + d.length := by omega
                    rw [harith2]
                    exact hstep2)
                  (by dsimp only; exact h3)
                  (by dsimp only; exact h4)
                  (by
                    dsimp only
                    intro m2 hm2
                    rw [hhead] at hm2
                    simp only [Option.some.injEq] at hm2
                    subst hm2
                    rw [if_pos (show (true : Bool) = true from rfl)]
                    omega)
                  (by
                    intro hcon
                    dsimp only at hcon
                    exact absurd hcon (by simp))
              dsimp only at RW0 RW3
              refine ⟨?_, ?_, ?_, ?_, ?_, ?_⟩
              · simp only [List.length_cons, RW1]
              · rw [flattenEdits_cons, RW2]
                have hgl : getTextList [DNode.text (jsTake (m.start - st.atIndex) d),
                    mkReplacement tag (jsDrop (m.start - st.atIndex) d) st.nextId] =
                    jsTake (m.start - st.atIndex) d ++ jsDrop (m.start - st.atIndex) d := by
                  simp [getTextList, getText_text, getText_mkReplacement]
                rw [hgl, jsTake_append_jsDrop]
                rfl
              · omega
              · intro id
                rw [countElEdits_cons, RW3 id]
                have hcel : countElList id [DNode.text (jsTake (m.start - st.atIndex) d),
                    mkReplacement tag (jsDrop (m.start - st.atIndex) d) st.nextId] =
                    if st.nextId = id then 1 else 0 := by
                  simp [countElList, countEl_text, countEl_mkReplacement]
                rw [hcel]
                split_ifs <;> omega
              · intro hne id hid1 hid2
                replace hne : ∀ t ∈ (d :: rest).drop 1, t ≠ [] := by exact hne
                have hneRest : ∀ t ∈ rest, t ≠ [] := fun t ht => hne t ht
                have hfillA : jsDrop (m.start - st.atIndex) d ≠ [] := by
                  rw [jsDrop, hStoNat, ne_eq, List.drop_eq_nil_iff]
                  omega
                rw [countGoodElEdits_cons]
                have hgA : countGoodElList id tag
                    [DNode.text (jsTake (m.start - st.atIndex) d),
                      mkReplacement tag (jsDrop (m.start - st.atIndex) d) st.nextId] =
                    if st.nextId = id then 1 else 0 := by
                  simp [countGoodElList, countGoodEl_text,
                    countGoodEl_mkReplacement _ _ _ _ hfillA]
                rw [hgA]
                rcases Nat.lt_or_ge st.nextId id with hlt2 | hge
                · have hval := RW4 (by
                    dsimp only
                    rw [if_pos (show (true : Bool) = true from rfl)]
                    exact hneRest) id (by dsimp only; omega) hid2
                  rw [hval, if_neg (by omega)]
                · have heqid : st.nextId = id := by omega
                  have hle := le_trans (countGoodElEdits_le_countElEdits id tag _)
                    (le_of_eq (RW3 id))
                  rw [if_neg (by omega)] at hle
                  rw [if_pos heqid]
                  omega
              · obtain ⟨newActs2, hrev2, hsub2⟩ := RW5
                dsimp only at hrev2 hsub2
                refine ⟨newActs2, hrev2, ?_⟩
                rw [hpend]
                simp only [List.nil_append]
                have hs2 : newActs2.flatten.Sublist (([] ++ [st.nextId]) ++
                    List.range' (st.nextId + 1)
                      ((walkTexts tag fuel { st with
                        atIndex := st.atIndex + (d.length : Int), started := true,
                        pendingElems := [st.nextId],
                        nextId := st.nextId + 1 } rest).1.nextId - (st.nextId + 1))) := by
                  simpa using hsub2
                have := sublist_range_extend RW0 hs2
                simpa using this
            · -- skip: the node lies wholly before the match start
              have hclassify : classifyVisit st.started st.atIndex (d.length) m = .skip := by
                rw [hst]
                exact classify_skip hend hgt
              rw [walkTexts_skip tag fuel st d rest m qs hq hclassify]
              dsimp only
              obtain ⟨RW1, RW2, RW0, RW3, RW4, RW5⟩ :=
                ih { st with atIndex := st.atIndex + (d.length : Int) }
                  rest
                  (by dsimp only; rw [hq]; simp only [List.length_cons]; omega)
                  (by dsimp only; omega)
                  (by dsimp only; omega)
                  (by
                    dsimp only
                    have harith2 : (st.atIndex + (d.length : Int)).toNat =
                        st.atIndex.toNat + d.length := by omega
                    rw [harith2]
                    exact hstep2)
                  (by dsimp only; exact h3)
                  (by dsimp only; exact h4)
                  (by
                    dsimp only
                    intro m2 hm2
                    rw [hhead] at hm2
                    simp only [Option.some.injEq] at hm2
                    subst hm2
                    rw [if_neg (show ¬ (st.started = true) by simp [hst])]
                    omega)
                  (by
                    intro _
                    dsimp only
                    exact h6 hst)
              dsimp only at RW0 RW3
              refine ⟨?_, ?_, ?_, ?_, ?_, ?_⟩
              · simp only [List.length_cons, RW1]
              · rw [flattenEdits_cons, RW2]
                have h1g : getTextList [DNode.text d] = d := by
                  simp [getTextList, getText]
                rw [h1g]
                rfl
              · omega
              · intro id
                rw [countElEdits_cons, RW3 id]
                simp [countElList, countEl]
              · intro hne id hid1 hid2
                replace hne : ∀ t ∈ (d :: rest).drop 1, t ≠ [] := by exact hne
                have hneRest : ∀ t ∈ rest, t ≠ [] := fun t ht => hne t ht
                have hneTail : ∀ t ∈ rest.drop 1, t ≠ [] := fun t ht =>
                  hneRest t (List.mem_of_mem_drop ht)
                have harg : (if st.started = true then (∀ t ∈ rest, t ≠ [])
                    else (∀ t ∈ rest.drop 1, t ≠ [])) := by
                  rw [hst]
                  exact hneTail
                have hval := RW4 (by exact harg) id (by dsimp only; omega) hid2
                rw [countGoodElEdits_cons, hval]
                simp [countGoodElList, countGoodEl]
              · obtain ⟨newActs2, hrev2, hsub2⟩ := RW5
                dsimp only at hrev2 hsub2
                exact ⟨newActs2, hrev2, hsub2⟩

theorem flattenEdits_append (a b : List (List DNode)) :
    flattenEdits (a ++ b) = flattenEdits a ++ flattenEdits b := by
  induction a with
  | nil => rfl
  | cons e es ih => simp [flattenEdits, ih]

theorem countElEdits_append (id : Nat) (a b : List (List DNode)) :
    countElEdits id (a ++ b) = countElEdits id a + countElEdits id b := by
  induction a with
  | nil => simp [countElEdits]
  | cons e es ih =>
    simp [countElEdits, ih, Nat.add_assoc]

theorem countGoodElEdits_append (id : Nat) (tag : String) (a b : List (List DNode)) :
    countGoodElEdits id tag (a ++ b) =
      countGoodElEdits id tag a + countGoodElEdits id tag b := by
  induction a with
  | nil => simp [countGoodElEdits]
  | cons e es ih =>
    simp [countGoodElEdits, ih, Nat.add_assoc]

/-- Correctness of splicing the per-Text-node edits back into the tree:
consumed edits line up with the Text nodes in document order, the
flattened text of the rebuilt forest is the flattened text of the
consumed edits, element-id occurrence counts add up, and, above every
original element id, so do the counts of undoable replacement shapes. -/
theorem rebuild_main (tag : String) : ∀ (cs : List DNode) (edits : List (List DNode)),
    (textsOfList cs).length ≤ edits.length →
    (rebuildList cs edits).2 = edits.drop (textsOfList cs).length ∧
    getTextList (rebuildList cs edits).1 =
      flattenEdits (edits.take (textsOfList cs).length) ∧
    (∀ id, countElList id (rebuildList cs edits).1 =
      countElList id cs + countElEdits id (edits.take (textsOfList cs).length)) ∧
    (∀ id, maxElemIdList cs < id →
      countGoodElList id tag (rebuildList cs edits).1 =
        countGoodElEdits id tag (edits.take (textsOfList cs).length)) := by
  have key : ∀ n : DNode, ∀ edits : List (List DNode),
      (textsOf n).length ≤ edits.length →
      (rebuildNode n edits).2 = edits.drop (textsOf n).length ∧
      getTextList (rebuildNode n edits).1 =
        flattenEdits (edits.take (textsOf n).length) ∧
      (∀ id, countElList id (rebuildNode n edits).1 =
        countEl id n + countElEdits id (edits.take (textsOf n).length)) ∧
      (∀ id, maxElemId n < id →
        countGoodElList id tag (rebuildNode n edits).1 =
          countGoodElEdits id tag (edits.take (textsOf n).length)) := by
    intro n
    induction n using DNode.rec
      (motive_2 := fun cs => ∀ edits : List (List DNode),
        (textsOfList cs).length ≤ edits.length →
        (rebuildList cs edits).2 = edits.drop (textsOfList cs).length ∧
        getTextList (rebuildList cs edits).1 =
          flattenEdits (edits.take (textsOfList cs).length) ∧
        (∀ id, countElList id (rebuildList cs edits).1 =
          countElList id cs + countElEdits id (edits.take (textsOfList cs).length)) ∧
        (∀ id, maxElemIdList cs < id →
          countGoodElList id tag (rebuildList cs edits).1 =
            countGoodElEdits id tag (edits.take (textsOfList cs).length))) with
    | text d =>
      intro edits hlen
      cases edits with
      | nil => simp [textsOf] at hlen
      | cons e es =>
        simp only [rebuildNode, textsOf, List.length_cons, List.length_singleton,
          List.drop_succ_cons, List.drop_zero, List.take_succ_cons, List.take_zero]
        refine ⟨rfl, by simp [flattenEdits], ?_, ?_⟩
        · intro id
          simp [countEl_text, flattenEdits, countElEdits]
        · intro id hid
          simp [countGoodElEdits]
    | elem i t cs ih =>
      intro edits hlen
      simp only [textsOf] at hlen ⊢
      obtain ⟨ihd, ihf, ihc, ihg⟩ := ih edits hlen
      simp only [rebuildNode]
      refine ⟨ihd, ?_, ?_, ?_⟩
      · have hx : getTextList [DNode.elem i t (rebuildList cs edits).1] =
            getTextList (rebuildList cs edits).1 := by
          simp [getTextList, getText]
        rw [hx, ihf]
      · intro id
        simp only [countElList, countEl]
        rw [ihc id]
        simp [countElList]
        omega
      · intro id hid
        simp only [maxElemId, max_lt_iff] at hid
        simp only [countGoodElList]
        have hshape : goodShape id tag (DNode.elem i t (rebuildList cs edits).1) = false := by
          rw [Bool.eq_false_iff, ne_eq, goodShape_iff]
          rintro ⟨fill, heq, -⟩
          injection heq with h1 h2 h3
          omega
        rw [countGoodEl]
        rw [hshape]
        simp only [Bool.false_eq_true, if_false]
        rw [ihg id hid.2]
        simp [countGoodElList]
    | nil =>
      rename_i edits hlen
      simp [rebuildList, textsOfList, flattenEdits, countElList, countGoodElList,
        countElEdits, countGoodElEdits, getTextList]
    | cons n rest ihn ihrest =>
      rename_i edits hlen
      simp only [textsOfList, List.length_append] at hlen ⊢
      obtain ⟨ihd, ihf, ihc, ihg⟩ := ihn edits (by omega)
      obtain ⟨jhd, jhf, jhc, jhg⟩ := ihrest (rebuildNode n edits).2 (by rw [ihd]; simp; omega)
      simp only [rebuildList]
      have htake : edits.take ((textsOf n).length + (textsOfList rest).length) =
          edits.take (textsOf n).length ++
            (edits.drop (textsOf n).length).take (textsOfList rest).length := by
        rw [← List.take_add]
      refine ⟨?_, ?_, ?_, ?_⟩
      · rw [jhd, ihd, List.drop_drop]
      · rw [getTextList_append, ihf, jhf, ihd, htake, flattenEdits_append]
      · intro id
        rw [countElList_append, ihc id, jhc id, ihd, htake, countElEdits_append]
        simp only [countElList]
        omega
      · intro id hid
        simp only [maxElemIdList, max_lt_iff] at hid
        rw [countGoodElList_append, ihg id hid.1, jhg id hid.2, ihd, htake,
          countGoodElEdits_append]
  intro cs edits hlen
  induction cs generalizing edits with
  | nil =>
    simp [rebuildList, textsOfList, flattenEdits, countElList, countGoodElList,
      countElEdits, countGoodElEdits, getTextList]
  | cons n rest ih =>
    simp only [textsOfList, List.length_append] at hlen ⊢
    obtain ⟨ihd, ihf, ihc, ihg⟩ := key n edits (by omega)
    obtain ⟨jhd, jhf, jhc, jhg⟩ := ih (rebuildNode n edits).2 (by rw [ihd]; simp; omega)
    simp only [rebuildList]
    have htake : edits.take ((textsOf n).length + (textsOfList rest).length) =
        edits.take (textsOf n).length ++
          (edits.drop (textsOf n).length).take (textsOfList rest).length := by
      rw [← List.take_add]
    refine ⟨?_, ?_, ?_, ?_⟩
    · rw [jhd, ihd, List.drop_drop]
    · rw [getTextList_append, ihf, jhf, ihd, htake, flattenEdits_append]
    · intro id
      rw [countElList_append, ihc id, jhc id, ihd, htake, countElEdits_append]
      simp only [countElList]
      omega
    · intro id hid
      simp only [maxElemIdList, max_lt_iff] at hid
      rw [countGoodElList_append, ihg id hid.1, jhg id hid.2, ihd, htake,
        countGoodElEdits_append]

/-- A child list containing no element with the id has no direct child
for the revert closure to replace. -/
theorem directReplace_none (id : Nat) : ∀ cs : List DNode,
    countElList id cs = 0 → directReplace id cs = none := by
  intro cs
  induction cs with
  | nil => intro _; rfl
  | cons n rest ih =>
    intro h
    simp only [countElList] at h
    have hrest : directReplace id rest = none := ih (by omega)
    cases n with
    | text d =>
      simp only [directReplace, hrest, dirCons]
    | elem i t ds =>
      simp only [countEl] at h
      have hi : ¬ (i = id) := by
        intro hcontra
        rw [if_pos hcontra] at h
        omega
      simp only [directReplace, if_neg hi, hrest, dirCons]

/-- A subtree containing no element with the id yields no unwrap
(the search of the revert closure's parent fails everywhere). -/
theorem unwrapNode_none (id : Nat) : ∀ n : DNode,
    countEl id n = 0 → unwrapNode id n = none := by
  intro n
  induction n using DNode.rec
    (motive_2 := fun l => countElList id l = 0 → unwrapList id l = none) with
  | text d => intro _; rfl
  | elem i t cs ih =>
    intro h
    simp only [countEl] at h
    have hcs : countElList id cs = 0 := by omega
    rw [unwrapNode, directReplace_none id cs hcs, ih hcs]
    rfl
  | nil => rfl
  | cons n rest ihn ihrest =>
    rename_i h
    simp only [countElList] at h
    rw [unwrapList, ihn (by omega), ihrest (by omega)]
    rfl

/-- List version of `unwrapNode_none`. -/
theorem unwrapList_none (id : Nat) : ∀ l : List DNode,
    countElList id l = 0 → unwrapList id l = none := by
  intro l
  induction l with
  | nil => intro _; rfl
  | cons n rest ih =>
    intro h
    simp only [countElList] at h
    rw [unwrapList, unwrapNode_none id n (by omega), ih (by omega)]
    rfl

/-- Direct-child search of a revert closure on a child list whose
occurrences of the id are all of the undoable shape: either the id is
not at the top level (and the search returns `none`), or the first (and
only) occurrence is replaced by its text child, preserving the flattened
text and the occurrence counts of every other id. -/
theorem directReplace_found (id : Nat) (tag : String) : ∀ cs : List DNode,
    countElList id cs ≤ 1 →
    countGoodElList id tag cs = countElList id cs →
    (directReplace id cs = none ∧ ∀ i t ds, DNode.elem i t ds ∈ cs → i ≠ id) ∨
    (∃ cs2, directReplace id cs = some (.ok cs2) ∧
      getTextList cs2 = getTextList cs ∧
      countElList id cs2 + 1 = countElList id cs ∧
      (∀ j, j ≠ id → countElList j cs2 = countElList j cs) ∧
      (∀ j, j ≠ id → countGoodElList j tag cs ≤ countGoodElList j tag cs2)) := by
  intro cs
  induction cs with
  | nil =>
    intro _ _
    exact Or.inl ⟨rfl, by simp⟩
  | cons n rest ih =>
    intro hc hg
    simp only [countElList, countGoodElList] at hc hg
    have hlen := countGoodEl_le_countEl id tag n
    have hler := countGoodElList_le_countElList id tag rest
    cases n with
    | text d =>
      have hcd : countEl id (DNode.text d) = 0 := rfl
      have hgd : countGoodEl id tag (DNode.text d) = 0 := rfl
      rw [hcd] at hc
      rw [hgd, hcd] at hg
      rcases ih (by omega) (by omega) with ⟨hnone, htop⟩ | ⟨cs2, hdr, hgt, hcnt, hcj, hgj⟩
      · refine Or.inl ⟨?_, ?_⟩
        · simp only [directReplace, hnone, dirCons]
        · intro i t ds hm
          rcases List.mem_cons.1 hm with heq | hm2
          · exact absurd heq (by intro h; cases h)
          · exact htop i t ds hm2
      · refine Or.inr ⟨DNode.text d :: cs2, ?_, ?_, ?_, ?_, ?_⟩
        · simp only [directReplace, hdr, dirCons]
        · simp only [getTextList, getText_text, hgt]
        · simp only [countElList, countEl_text]
          omega
        · intro j hj
          simp only [countElList, countEl_text, hcj j hj]
        · intro j hj
          simp only [countGoodElList, countGoodEl_text]
          have := hgj j hj
          omega
    | elem i t ds =>
      by_cases hi : i = id
      · simp only [countEl] at hc
        rw [if_pos hi] at hc
        have hds : countElList id ds = 0 := by omega
        have hcr : countElList id rest = 0 := by omega
        have hgr : countGoodElList id tag rest = 0 := by omega
        have hgds : countGoodElList id tag ds = 0 := by
          have := countGoodElList_le_countElList id tag ds
          omega
        have hgn : countGoodEl id tag (DNode.elem i t ds) = 1 := by
          simp only [countEl] at hg
          rw [if_pos hi] at hg
          omega
        have hshape : goodShape id tag (DNode.elem i t ds) = true := by
          simp only [countGoodEl, hgds] at hgn
          by_contra hcon
          rw [Bool.not_eq_true] at hcon
          rw [hcon] at hgn
          simp at hgn
        obtain ⟨fill, heq, hfill⟩ := (goodShape_iff id tag _).1 hshape
        injection heq with e1 e2 e3
        refine Or.inr ⟨DNode.text fill :: rest, ?_, ?_, ?_, ?_, ?_⟩
        · rw [e3]
          simp only [directReplace, if_pos hi]
        · simp only [getTextList, getText_text, getText, e3]
          simp
        · simp only [countElList, countEl_text, countEl]
          rw [if_pos hi, e3]
          simp only [countElList, countEl_text]
          omega
        · intro j hj
          simp only [countElList, countEl_text, countEl]
          rw [if_neg (show ¬ i = j by rw [hi]; exact fun h => hj h.symm), e3]
          simp only [countElList, countEl_text]
        · intro j hj
          simp only [countGoodElList, countGoodEl_text, countGoodEl]
          have hshj : goodShape j tag (DNode.elem i t ds) = false := by
            rw [Bool.eq_false_iff, ne_eq, goodShape_iff]
            rintro ⟨fill2, heq2, -⟩
            injection heq2 with f1 f2 f3
            exact hj (hi ▸ f1).symm
          rw [hshj]
          simp only [Bool.false_eq_true, if_false, e3]
          simp only [countGoodElList, countGoodEl_text]
          omega
      · have hsplit1 : countGoodEl id tag (DNode.elem i t ds) =
            countEl id (DNode.elem i t ds) := by omega
        have hsplit2 : countGoodElList id tag rest = countElList id rest := by omega
        rcases ih (by omega) hsplit2 with ⟨hnone, htop⟩ | ⟨cs2, hdr, hgt, hcnt, hcj, hgj⟩
        · refine Or.inl ⟨?_, ?_⟩
          · simp only [directReplace, if_neg hi, hnone, dirCons]
          · intro i2 t2 ds2 hm
            rcases List.mem_cons.1 hm with heq | hm2
            · injection heq with f1 f2 f3
              rw [f1]
              exact hi
            · exact htop i2 t2 ds2 hm2
        · refine Or.inr ⟨DNode.elem i t ds :: cs2, ?_, ?_, ?_, ?_, ?_⟩
          · simp only [directReplace, if_neg hi, hdr, dirCons]
          · simp only [getTextList, hgt]
          · simp only [countElList]
            omega
          · intro j hj
            simp only [countElList, hcj j hj]
          · intro j hj
            simp only [countGoodElList]
            have := hgj j hj
            omega

/-- Postcondition of unwrapping the unique replacement element with the
given id inside a node: text preserved, that id gone, all other ids kept
(their undoable occurrences at least), and an Element node keeps its own
id and tag. -/
def UnwrapOkN (id : Nat) (tag : String) (n n2 : DNode) : Prop :=
  getText n2 = getText n ∧
  countEl id n2 = 0 ∧
  (∀ j, j ≠ id → countEl j n2 = countEl j n) ∧
  (∀ j, j ≠ id → countGoodEl j tag n ≤ countGoodEl j tag n2) ∧
  (∀ i t cs, n = DNode.elem i t cs → ∃ cs2, n2 = DNode.elem i t cs2)

/-- List version of `UnwrapOkN`. -/
def UnwrapOkL (id : Nat) (tag : String) (l l2 : List DNode) : Prop :=
  getTextList l2 = getTextList l ∧
  countElList id l2 = 0 ∧
  (∀ j, j ≠ id → countElList j l2 = countElList j l) ∧
  (∀ j, j ≠ id → countGoodElList j tag l ≤ countGoodElList j tag l2)

/-- Main unwrap lemma: a subtree holding exactly one element with the
id, of the undoable replacement shape, and whose own top node is not
that element, unwraps successfully with the `UnwrapOkN` postcondition
(the revert closure finds the parent, splices the text child in place of
the element, and normalizes the parent). -/
theorem unwrap_main (id : Nat) (tag : String) : ∀ n : DNode,
    countEl id n = 1 → countGoodEl id tag n = 1 →
    (∀ i t cs, n = DNode.elem i t cs → i ≠ id) →
    ∃ n2, unwrapNode id n = some (.ok n2) ∧ UnwrapOkN id tag n n2 := by
  intro n
  induction n using DNode.rec
    (motive_2 := fun l =>
      countElList id l = 1 → countGoodElList id tag l = 1 →
      (∀ i t ds, DNode.elem i t ds ∈ l → i ≠ id) →
      ∃ l2, unwrapList id l = some (.ok l2) ∧ UnwrapOkL id tag l l2) with
  | text d =>
    intro hc
    simp [countEl] at hc
  | elem i t cs ih =>
    intro hc hg htop
    have hi : i ≠ id := htop i t cs rfl
    simp only [countEl] at hc
    rw [if_neg hi] at hc
    have hshapeSelf : goodShape id tag (DNode.elem i t cs) = false := by
      rw [Bool.eq_false_iff, ne_eq, goodShape_iff]
      rintro ⟨fill, heq, -⟩
      injection heq with e1 e2 e3
      exact hi e1
    simp only [countGoodEl, hshapeSelf] at hg
    simp only [Bool.false_eq_true, if_false, Nat.zero_add] at hg
    have hbefore : ∀ j, goodShape j tag (DNode.elem i t cs) = false := by
      intro j
      rw [Bool.eq_false_iff, ne_eq, goodShape_iff]
      rintro ⟨fill, heq, -⟩
      injection heq with e1 e2 e3
      rw [e3] at hc
      simp [countElList, countEl] at hc
    rcases directReplace_found id tag cs (by omega) (by omega) with
      ⟨hdr, htopcs⟩ | ⟨cs2, hdr, hgt, hcnt, hcj, hgj⟩
    · obtain ⟨cs2, hul, hT, h0, hJ, hG⟩ := ih (by omega) (by omega) htopcs
      refine ⟨DNode.elem i t cs2, ?_, ?_, ?_, ?_, ?_, ?_⟩
      · rw [unwrapNode, hdr, hul]
        rfl
      · simp only [getText]
        exact hT
      · simp only [countEl]
        rw [if_neg hi, h0]
      · intro j hj
        simp only [countEl]
        rw [hJ j hj]
      · intro j hj
        simp only [countGoodEl]
        rw [hbefore j]
        simp only [Bool.false_eq_true, if_false, Nat.zero_add]
        have := hG j hj
        omega
      · intro i2 t2 cs3 heq
        injection heq with e1 e2 e3
        exact ⟨cs2, by rw [e1, e2]⟩
    · refine ⟨DNode.elem i t (normalizeList cs2), ?_, ?_, ?_, ?_, ?_, ?_⟩
      · rw [unwrapNode, hdr]
        rfl
      · simp only [getText]
        rw [getTextList_normalize, hgt]
      · simp only [countEl]
        rw [if_neg hi, countElList_normalize]
        omega
      · intro j hj
        simp only [countEl]
        rw [countElList_normalize, hcj j hj]
      · intro j hj
        simp only [countGoodEl]
        rw [hbefore j]
        simp only [Bool.false_eq_true, if_false, Nat.zero_add]
        have h1 := hgj j hj
        have h2 := countGoodElList_normalize_ge j tag cs2
        omega
      · intro i2 t2 cs3 heq
        injection heq with e1 e2 e3
        exact ⟨normalizeList cs2, by rw [e1, e2]⟩
  | nil =>
    rename_i hc hg htop
    simp [countElList] at hc
  | cons n rest ihn ihrest =>
    rename_i hc hg htop
    simp only [countElList, countGoodElList] at hc hg
    have hlen := countGoodEl_le_countEl id tag n
    have hler := countGoodElList_le_countElList id tag rest
    by_cases hcn : countEl id n = 1
    · have hcr : countElList id rest = 0 := by omega
      have hgr0 : countGoodElList id tag rest = 0 := by omega
      have hgn : countGoodEl id tag n = 1 := by omega
      obtain ⟨n2, hun, hT, h0, hJ, hG, hS⟩ :=
        ihn hcn hgn (fun i t ds heq => htop i t ds (heq ▸ List.mem_cons_self n rest))
      refine ⟨n2 :: rest, ?_, ?_, ?_, ?_, ?_⟩
      · rw [unwrapList, hun]
        rfl
      · simp only [getTextList]
        rw [hT]
      · simp only [countElList]
        rw [h0, hcr]
      · intro j hj
        simp only [countElList]
        rw [hJ j hj]
      · intro j hj
        simp only [countGoodElList]
        have := hG j hj
        omega
    · have hcn0 : countEl id n = 0 := by omega
      have hcr : countElList id rest = 1 := by omega
      have hgn0 : countGoodEl id tag n = 0 := by omega
      have hgr : countGoodElList id tag rest = 1 := by omega
      obtain ⟨rest2, hur, hT, h0, hJ, hG⟩ :=
        ihrest hcr hgr (fun i t ds hm => htop i t ds (List.mem_cons_of_mem n hm))
      refine ⟨n :: rest2, ?_, ?_, ?_, ?_, ?_⟩
      · rw [unwrapList, unwrapNode_none id n hcn0, hur]
        rfl
      · simp only [getTextList]
        rw [hT]
      · simp only [countElList]
        rw [h0, hcn0]
      · intro j hj
        simp only [countElList]
        rw [hJ j hj]
      · intro j hj
        simp only [countGoodElList]
        have := hG j hj
        omega

/-- Running one revert closure's unwraps in order succeeds when each id
occurs exactly once, with the undoable shape, and the root element is
not itself one of the targets; text and the counts of untouched ids are
preserved, and the root keeps its id and tag. -/
theorem runIds_ok (tag : String) : ∀ (ids : List Nat) (root : DNode),
    ids.Nodup →
    (∀ id ∈ ids, countEl id root = 1 ∧ countGoodEl id tag root = 1) →
    (∀ id ∈ ids, ∀ i t cs, root = DNode.elem i t cs → i ≠ id) →
    ∃ root2, runIds root ids = .ok root2 ∧
      getText root2 = getText root ∧
      (∀ j, j ∉ ids → countEl j root2 = countEl j root) ∧
      (∀ j, j ∉ ids → countGoodEl j tag root ≤ countGoodEl j tag root2) ∧
      (∀ i t cs, root = DNode.elem i t cs → ∃ cs2, root2 = DNode.elem i t cs2) := by
  intro ids
  induction ids with
  | nil =>
    intro root _ _ _
    exact ⟨root, rfl, rfl, fun j _ => rfl, fun j _ => le_refl _, fun i t cs h => ⟨cs, h⟩⟩
  | cons id rest ih =>
    intro root hnd hcnt htop
    rw [List.nodup_cons] at hnd
    obtain ⟨hnotmem, hndrest⟩ := hnd
    obtain ⟨hc1, hg1⟩ := hcnt id (List.mem_cons_self id rest)
    cases root with
    | text d =>
      exact absurd hc1 (by simp [countEl])
    | elem ri rt rcs =>
      obtain ⟨r1, hu, hT, h0, hJ, hG, hS⟩ :=
        unwrap_main id tag (DNode.elem ri rt rcs) hc1 hg1
          (htop id (List.mem_cons_self id rest))
      have hrun1 : unwrapIn (DNode.elem ri rt rcs) id = .ok r1 := by
        simp only [unwrapIn, hu]
      obtain ⟨cs2, hr1eq⟩ := hS ri rt rcs rfl
      have hcnt2 : ∀ id2 ∈ rest, countEl id2 r1 = 1 ∧ countGoodEl id2 tag r1 = 1 := by
        intro id2 hm
        have hne : id2 ≠ id := fun h => hnotmem (h ▸ hm)
        obtain ⟨hc2, hg2⟩ := hcnt id2 (List.mem_cons_of_mem id hm)
        have hcr1 : countEl id2 r1 = 1 := by rw [hJ id2 hne, hc2]
        refine ⟨hcr1, ?_⟩
        have hle := countGoodEl_le_countEl id2 tag r1
        have hge := hG id2 hne
        rw [hg2] at hge
        omega
      have htop2 : ∀ id2 ∈ rest, ∀ i t cs, r1 = DNode.elem i t cs → i ≠ id2 := by
        intro id2 hm i t cs heq
        rw [hr1eq] at heq
        injection heq with e1 e2 e3
        rw [← e1]
        exact htop id2 (List.mem_cons_of_mem id hm) ri rt rcs rfl
      obtain ⟨root2, hrunR, hT2, hJ2, hG2, hS2⟩ := ih r1 hndrest hcnt2 htop2
      refine ⟨root2, ?_, ?_, ?_, ?_, ?_⟩
      · simp only [runIds, hrun1]
        exact hrunR
      · rw [hT2, hT]
      · intro j hj
        have hjid : j ≠ id := fun h => hj (h ▸ List.mem_cons_self id rest)
        have hjrest : j ∉ rest := fun h => hj (List.mem_cons_of_mem id h)
        rw [hJ2 j hjrest, hJ j hjid]
      · intro j hj
        have hjid : j ≠ id := fun h => hj (h ▸ List.mem_cons_self id rest)
        have hjrest : j ∉ rest := fun h => hj (List.mem_cons_of_mem id h)
        exact le_trans (hG j hjid) (hG2 j hjrest)
      · intro i t cs heq
        injection heq with e1 e2 e3
        obtain ⟨cs3, h3⟩ := hS2 ri rt cs2 hr1eq
        exact ⟨cs3, by rw [← e1, ← e2]; exact h3⟩

/-- Splitting a run of unwraps at a list boundary. -/
theorem runIds_append : ∀ (a : List Nat) (root : DNode) (b : List Nat),
    runIds root (a ++ b) =
      (match runIds root a with
       | .error e => .error e
       | .ok r => runIds r b) := by
  intro a
  induction a with
  | nil => intro root b; rfl
  | cons id a2 ih =>
    intro root b
    simp only [List.cons_append, runIds]
    cases hu : unwrapIn root id with
    | error e => rfl
    | ok r => exact ih r b

/-- Running the recorded closures action by action is running all their
unwraps in one flattened sequence. -/
theorem runActions_eq : ∀ (acts : List (List Nat)) (root : DNode),
    runActions root acts = runIds root acts.flatten := by
  intro acts
  induction acts with
  | nil => intro root; rfl
  | cons a rest ih =>
    intro root
    simp only [runActions, List.flatten_cons]
    rw [runIds_append]
    cases hr : runIds root a with
    | error e => rfl
    | ok r => exact ih r

/-- Initial state of the cursor walk for an Element root (source lines
104-112: `atIndex = 0`, `matchIndex = 0`, no boundaries found, empty
revert list, fresh ids above the tree). -/
def splice0 (i : Nat) (t : String) (cs : List DNode) (ms : List MatchDesc) : SpliceState :=
  ⟨0, ms, 0, false, [], [], maxElemId (DNode.elem i t cs) + 1⟩

/-- The full walk over the Text data of an Element root. -/
def walkRes (tag : String) (i : Nat) (t : String) (cs : List DNode)
    (ms : List MatchDesc) : SpliceState × List (List DNode) :=
  walkTexts tag (ms.length + (textsOfList cs).length) (splice0 i t cs ms) (textsOfList cs)

/-- Combined correctness of `_stepThroughMatches` on an Element root for
an ordered, in-bounds match list over a tree whose Text nodes are all
non-empty: the flattened text is preserved, the recorded revert actions
reference pairwise distinct replacement elements, each recorded id
occurs exactly once in the result, in the undoable shape, and the root
element itself is never a recorded replacement. -/
theorem stepThroughMatches_ok (tag : String) (i : Nat) (t : String) (cs : List DNode)
    (ms : List MatchDesc)
    (hall : ∀ d ∈ ms, DescOk (getTextList cs) d)
    (hchain : List.Chain' (fun a b => a.endIdx ≤ b.start) ms)
    (hne : ∀ s ∈ textsOfList cs, s ≠ []) :
    getText (stepThroughMatches (DNode.elem i t cs) ms tag).1 = getTextList cs ∧
    (stepThroughMatches (DNode.elem i t cs) ms tag).2.flatten.Nodup ∧
    (∀ id ∈ (stepThroughMatches (DNode.elem i t cs) ms tag).2.flatten,
      countEl id (stepThroughMatches (DNode.elem i t cs) ms tag).1 = 1 ∧
      countGoodEl id tag (stepThroughMatches (DNode.elem i t cs) ms tag).1 = 1) ∧
    (∀ id ∈ (stepThroughMatches (DNode.elem i t cs) ms tag).2.flatten,
      ∀ i2 t2 cs2,
        (stepThroughMatches (DNode.elem i t cs) ms tag).1 = DNode.elem i2 t2 cs2 →
        i2 ≠ id) := by
  have hhead : ∀ m : MatchDesc, ms.head? = some m → (0 : Int) ≤ m.start := by
    intro m hm
    cases ms with
    | nil => simp at hm
    | cons m0 ms2 =>
      simp only [List.head?_cons, Option.some.injEq] at hm
      exact hm ▸ (hall m0 (List.mem_cons_self m0 ms2)).1
  obtain ⟨W1, W2, W3, W4, W5, W6⟩ :=
    walkTexts_main tag (getTextList cs) (ms.length + (textsOfList cs).length)
      (splice0 i t cs ms) (textsOfList cs)
      (le_refl _) (le_refl _) (Nat.zero_le _)
      ((getTextList_eq_concat_textsOf cs).symm)
      hall hchain
      (fun m hm => hhead m hm)
      (fun _ => rfl)
  obtain ⟨acts, hrev, hsub⟩ := W6
  rw [show walkTexts tag (ms.length + (textsOfList cs).length) (splice0 i t cs ms)
      (textsOfList cs) = walkRes tag i t cs ms from rfl] at W1 W2 W3 W4 W5 hrev
  have hsub2 : acts.flatten.Sublist
      (List.range' (maxElemId (DNode.elem i t cs) + 1)
        ((walkRes tag i t cs ms).1.nextId - (maxElemId (DNode.elem i t cs) + 1))) := by
    simpa [splice0, walkRes] using hsub
  have hstep : stepThroughMatches (DNode.elem i t cs) ms tag =
      (DNode.elem i t (rebuildList cs (walkRes tag i t cs ms).2).1,
        (walkRes tag i t cs ms).1.reverts) := rfl
  have hlen : (textsOfList cs).length ≤ (walkRes tag i t cs ms).2.length := le_of_eq W1.symm
  have htakeAll : (walkRes tag i t cs ms).2.take (textsOfList cs).length =
      (walkRes tag i t cs ms).2 := by
    rw [← W1, List.take_length]
  obtain ⟨R1, R2, R3, R4⟩ := rebuild_main tag cs (walkRes tag i t cs ms).2 hlen
  rw [htakeAll] at R2 R3 R4
  have hrevEq : (walkRes tag i t cs ms).1.reverts = acts := by
    rw [hrev]
    rfl
  have hidBounds : ∀ id ∈ acts.flatten,
      maxElemId (DNode.elem i t cs) + 1 ≤ id ∧ id < (walkRes tag i t cs ms).1.nextId := by
    intro id hid
    have hmem := hsub2.subset hid
    have := List.mem_range'_1.1 hmem
    have hW3 : maxElemId (DNode.elem i t cs) + 1 ≤ (walkRes tag i t cs ms).1.nextId := W3
    omega
  rw [hstep]
  dsimp only
  rw [hrevEq]
  refine ⟨?_, ?_, ?_, ?_⟩
  · simp only [getText]
    rw [R2, W2, getTextList_eq_concat_textsOf]
  · exact hsub2.nodup (List.nodup_range' _ _ 1 Nat.one_pos)
  · intro id hid
    obtain ⟨hlo, hhi⟩ := hidBounds id hid
    have hmaxroot : maxElemId (DNode.elem i t cs) < id := by omega
    have hzero : countEl id (DNode.elem i t cs) = 0 :=
      countEl_eq_zero_of_gt_max id _ hmaxroot
    simp only [countEl] at hzero
    have hine : ¬ (i = id) := by
      intro h
      rw [if_pos h] at hzero
      omega
    have hcszero : countElList id cs = 0 := by
      rw [if_neg hine] at hzero
      omega
    have hedits : countElEdits id (walkRes tag i t cs ms).2 = 1 := by
      rw [W4 id, if_pos ⟨hlo, hhi⟩]
    constructor
    · simp only [countEl]
      rw [if_neg hine, R3 id, hcszero, hedits]
    · have hmaxcs : maxElemIdList cs < id := by
        have : maxElemIdList cs ≤ maxElemId (DNode.elem i t cs) := by
          simp only [maxElemId]
          omega
        omega
      have hgood : countGoodElEdits id tag (walkRes tag i t cs ms).2 = 1 := by
        refine W5 ?_ id hlo hhi
        intro s hs
        exact hne s (List.mem_of_mem_drop hs)
      have hshape : goodShape id tag
          (DNode.elem i t (rebuildList cs (walkRes tag i t cs ms).2).1) = false := by
        rw [Bool.eq_false_iff, ne_eq, goodShape_iff]
        rintro ⟨fill, heq, -⟩
        injection heq with e1 e2 e3
        exact hine e1
      simp only [countGoodEl, hshape]
      simp only [Bool.false_eq_true, if_false, Nat.zero_add]
      rw [R4 id hmaxcs, hgood]
  · intro id hid i2 t2 cs2 heq
    obtain ⟨hlo, hhi⟩ := hidBounds id hid
    injection heq with e1 e2 e3
    rw [← e1]
    intro h
    rw [h] at hlo
    simp only [maxElemId] at hlo
    omega

/-- Text preservation of `_stepThroughMatches` alone, for any ordered
in-bounds match list (no shape condition on the Text nodes is needed for
the flattened text). -/
theorem step_getText (tag : String) (i : Nat) (t : String) (cs : List DNode)
    (ms : List MatchDesc)
    (hall : ∀ d ∈ ms, DescOk (getTextList cs) d)
    (hchain : List.Chain' (fun a b => a.endIdx ≤ b.start) ms) :
    getText (stepThroughMatches (DNode.elem i t cs) ms tag).1 = getTextList cs := by
  have hhead : ∀ m : MatchDesc, ms.head? = some m → (0 : Int) ≤ m.start := by
    intro m hm
    cases ms with
    | nil => simp at hm
    | cons m0 ms2 =>
      simp only [List.head?_cons, Option.some.injEq] at hm
      exact hm ▸ (hall m0 (List.mem_cons_self m0 ms2)).1
  obtain ⟨W1, W2, W3, W4, W5, W6⟩ :=
    walkTexts_main tag (getTextList cs) (ms.length + (textsOfList cs).length)
      (splice0 i t cs ms) (textsOfList cs)
      (le_refl _) (le_refl _) (Nat.zero_le _)
      ((getTextList_eq_concat_textsOf cs).symm)
      hall hchain
      (fun m hm => hhead m hm)
      (fun _ => rfl)
  rw [show walkTexts tag (ms.length + (textsOfList cs).length) (splice0 i t cs ms)
      (textsOfList cs) = walkRes tag i t cs ms from rfl] at W1 W2
  have hstep : stepThroughMatches (DNode.elem i t cs) ms tag =
      (DNode.elem i t (rebuildList cs (walkRes tag i t cs ms).2).1,
        (walkRes tag i t cs ms).1.reverts) := rfl
  have hlen : (textsOfList cs).length ≤ (walkRes tag i t cs ms).2.length := le_of_eq W1.symm
  have htakeAll : (walkRes tag i t cs ms).2.take (textsOfList cs).length =
      (walkRes tag i t cs ms).2 := by
    rw [← W1, List.take_length]
  obtain ⟨R1, R2, R3, R4⟩ := rebuild_main tag cs (walkRes tag i t cs ms).2 hlen
  rw [htakeAll] at R2
  rw [hstep]
  dsimp only
  simp only [getText]
  rw [R2, W2, getTextList_eq_concat_textsOf]

/-- Case analysis of a successful `findAndReplaceDOMText` call: either
no splicing happened (empty text or no match) and the tree is returned
unchanged with an empty revert list, or a non-empty match list was
located and `_stepThroughMatches` produced the tree and the revert
actions. -/
theorem findAndReplace_cases (rx : JsRegex) (root : DNode) (tag : String) (cg : Nat)
    (g : GlobalState) (tree : DNode) (g2 : GlobalState)
    (hrun : findAndReplaceST rx root tag cg g = (.ok tree, g2)) :
    (tree = root ∧ g2 = some []) ∨
    (∃ ms : List MatchDesc, ms ≠ [] ∧ locate rx (getText root) cg = .ok ms ∧
      getText root ≠ [] ∧
      tree = (stepThroughMatches root ms tag).1 ∧
      g2 = some (stepThroughMatches root ms tag).2) := by
  simp only [findAndReplaceST] at hrun
  by_cases htext : getText root = []
  · rw [if_pos htext] at hrun
    left
    rw [Prod.mk.injEq] at hrun
    obtain ⟨h1, h2⟩ := hrun
    exact ⟨(Except.ok.inj h1).symm, h2.symm⟩
  · rw [if_neg htext] at hrun
    cases hloc : locate rx (getText root) cg with
    | error e =>
      rw [hloc] at hrun
      simp at hrun
    | ok ms =>
      rw [hloc] at hrun
      cases ms with
      | nil =>
        left
        dsimp only at hrun
        rw [Prod.mk.injEq] at hrun
        obtain ⟨h1, h2⟩ := hrun
        exact ⟨(Except.ok.inj h1).symm, h2.symm⟩
      | cons m0 ms2 =>
        right
        dsimp only at hrun
        rw [Prod.mk.injEq] at hrun
        obtain ⟨h1, h2⟩ := hrun
        exact ⟨m0 :: ms2, by simp, rfl, htext, (Except.ok.inj h1).symm, h2.symm⟩

/-- C1 (corrected). Round trip: for an Element subtree all of whose Text
nodes are non-empty, after a successful `replace(...)` call,
`revertLast()` undoes every replacement of that call in original
application order, clears the revert list, and restores a flattened text
equal to the pre-replace flattened text. (The spec's unconditional claim
fails when an empty Text node lies strictly inside a match span: the
replacement element then has no child and the revert closure's
`insertBefore(el.firstChild, el)` throws a `TypeError` — see the
counterexample.) -/
theorem C1_replace_revert_roundtrip (rx : JsRegex) (i : Nat) (t : String)
    (cs : List DNode) (tag : String) (cg : Nat) (g : GlobalState)
    (tree : DNode) (g2 : GlobalState)
    (heng : EngineOk rx (getText (DNode.elem i t cs)))
    (hne : ∀ s ∈ textsOf (DNode.elem i t cs), s ≠ [])
    (hrun : findAndReplaceST rx (DNode.elem i t cs) tag cg g = (.ok tree, g2)) :
    ∃ root2, revertOp g2 tree = (.ok root2, some []) ∧
      getText root2 = getText (DNode.elem i t cs) := by
  rcases findAndReplace_cases rx (DNode.elem i t cs) tag cg g tree g2 hrun with
    ⟨htree, hg2⟩ | ⟨ms, hmsne, hloc, htext, htree, hg2⟩
  · refine ⟨DNode.elem i t cs, ?_, rfl⟩
    rw [hg2, htree]
    rfl
  · obtain ⟨hall, hchain⟩ := locate_ok heng hloc
    obtain ⟨S1, S2, S3, S4⟩ := stepThroughMatches_ok tag i t cs ms hall hchain hne
    obtain ⟨root2, hrok, hT, hJ, hG, hS⟩ :=
      runIds_ok tag (stepThroughMatches (DNode.elem i t cs) ms tag).2.flatten
        (stepThroughMatches (DNode.elem i t cs) ms tag).1 S2 S3 S4
    refine ⟨root2, ?_, ?_⟩
    · rw [hg2, htree]
      have hra : runActions (stepThroughMatches (DNode.elem i t cs) ms tag).1
          (stepThroughMatches (DNode.elem i t cs) ms tag).2 = .ok root2 := by
        rw [runActions_eq]
        exact hrok
      simp only [revertOp]
      rw [hra]
    · rw [hT, S1]
      rfl

/-- Concrete instance for C1: replacing the literal `test` in a
paragraph and reverting restores the original flattened text. -/
theorem C1_replace_revert_roundtrip_witness :
    ∃ root2, revertOp (some [[1]]) (DNode.elem 0 "p" [DNode.text (str "This is a "),
      DNode.elem 1 "em" [DNode.text (str "test")]]) = (.ok root2, some []) ∧
      getText root2 = getText (DNode.elem 0 "p" [DNode.text (str "This is a test")]) :=
  C1_replace_revert_roundtrip (literalRegex (str "test") false) 0 "p"
    [DNode.text (str "This is a test")] "em" 0 initialState
    (DNode.elem 0 "p" [DNode.text (str "This is a "),
      DNode.elem 1 "em" [DNode.text (str "test")]])
    (some [[1]])
    (literal_engineOk _ _ _)
    (by decide)
    (by decide)

/-- A subtree with an empty Text node strictly inside the match span:
`replace` succeeds and records one revert action, but running the revert
throws a `TypeError` instead of restoring the text, refuting the spec's
unconditional round-trip claim. -/
def badRoot : DNode :=
  DNode.elem 0 "p" [DNode.text (str "ab"), DNode.text [], DNode.text (str "cd")]

/-- Counterexample to the spec's unconditional C1 claim: on `badRoot`
the match `abcd` spans all three Text nodes and is replaced (one revert
action over three replacement elements is recorded), but `revertLast()`
throws a `TypeError` and does not restore the text. -/
theorem C1_counterexample :
    (findAndReplaceST (literalRegex (str "abcd") false) badRoot "em" 0 initialState).2 =
      some [[1, 2, 3]] ∧
    ((findAndReplaceST (literalRegex (str "abcd") false) badRoot "em" 0
        initialState).1.map (fun tr => revertOp (some [[1, 2, 3]]) tr)) =
      .ok (.error .typeError, some [[1, 2, 3]]) := by decide

/-- C2 (confirmed). Flattened-text preservation: for every Element
subtree and pattern, a completed `replace` with a tag-name
`replacementSpec` leaves the flattened text of the subtree equal to the
flattened text before the call — no character of text content is added,
removed or reordered. -/
theorem C2_flatten_preserved (rx : JsRegex) (i : Nat) (t : String) (cs : List DNode)
    (tag : String) (cg : Nat) (g : GlobalState) (tree : DNode) (g2 : GlobalState)
    (heng : EngineOk rx (getText (DNode.elem i t cs)))
    (hrun : findAndReplaceST rx (DNode.elem i t cs) tag cg g = (.ok tree, g2)) :
    getText tree = getText (DNode.elem i t cs) := by
  rcases findAndReplace_cases rx (DNode.elem i t cs) tag cg g tree g2 hrun with
    ⟨htree, hg2⟩ | ⟨ms, hmsne, hloc, htext, htree, hg2⟩
  · rw [htree]
  · obtain ⟨hall, hchain⟩ := locate_ok heng hloc
    rw [htree]
    exact step_getText tag i t cs ms hall hchain

/-- Concrete instance for C2: a match spanning two Text nodes across an
element boundary is replaced and the flattened text is unchanged. -/
theorem C2_flatten_preserved_witness :
    getText (DNode.elem 9 "r" [DNode.text (str "fo"),
      DNode.elem 10 "em" [DNode.text (str "o ")],
      DNode.elem 1 "b" [DNode.elem 11 "em" [DNode.text (str "ba")], DNode.text (str "r")],
      DNode.text (str " baz")]) =
    getText (DNode.elem 9 "r" [DNode.text (str "foo "),
      DNode.elem 1 "b" [DNode.text (str "bar")], DNode.text (str " baz")]) :=
  C2_flatten_preserved (literalRegex (str "o ba") false) 9 "r"
    [DNode.text (str "foo "), DNode.elem 1 "b" [DNode.text (str "bar")],
      DNode.text (str " baz")] "em" 0 initialState
    (DNode.elem 9 "r" [DNode.text (str "fo"),
      DNode.elem 10 "em" [DNode.text (str "o ")],
      DNode.elem 1 "b" [DNode.elem 11 "em" [DNode.text (str "ba")], DNode.text (str "r")],
      DNode.text (str " baz")])
    (some [[10, 11]])
    (literal_engineOk _ _ _)
    (by decide)

/-- C3 (confirmed). Span-mapping correctness: on a Text-node visit with
running offset `atIndex` and length `len`, the node resolves the match
end exactly when the end is unresolved and `atIndex + len >= match.end`
(as the end of a multi-node span when the start was already found, or of
a single-node span when this node also passes the start check);
otherwise with the start found it is an intervening node; it resolves
the match start exactly when the start is unresolved and
`atIndex + len > match.start`; and after the end-of-match replacement
the walk resumes from the returned node with
`atIndex = atIndex + len - (len - endOffsetWithinNode)` where
`endOffsetWithinNode = match.end - atIndex`, the next match shifted in
and `matchIndex` incremented. -/
theorem C3_span_mapping (started : Bool) (atIndex len : Int) (m : MatchDesc) :
    (classifyVisit started atIndex len m = VisitKind.endMulti ↔
      (m.endIdx ≤ atIndex + len ∧ started = true)) ∧
    (classifyVisit started atIndex len m = VisitKind.endSingle ↔
      (m.endIdx ≤ atIndex + len ∧ started = false ∧ m.start < atIndex + len)) ∧
    (classifyVisit started atIndex len m = VisitKind.innerHit ↔
      (¬ m.endIdx ≤ atIndex + len ∧ started = true)) ∧
    (classifyVisit started atIndex len m = VisitKind.startHit ↔
      (¬ m.endIdx ≤ atIndex + len ∧ started = false ∧ m.start < atIndex + len)) ∧
    (classifyVisit started atIndex len m = VisitKind.skip ↔
      (¬ m.endIdx ≤ atIndex + len ∧ started = false ∧ ¬ m.start < atIndex + len)) ∧
    (∀ (tag : String) (fuel : Nat) (st : SpliceState) (d : Str) (rest : List Str)
        (qs : List MatchDesc),
      st.matchQueue = m :: qs →
      classifyVisit st.started st.atIndex (d.length : Int) m = VisitKind.endMulti →
      (walkTexts tag (fuel + 1) st (d :: rest)).1 =
        (walkTexts tag fuel
          { atIndex := st.atIndex + (d.length : Int) -
              ((d.length : Int) - (m.endIdx - st.atIndex)),
            matchQueue := qs, matchIndex := st.matchIndex + 1,
            started := false, pendingElems := [],
            reverts := st.reverts ++ [st.pendingElems ++ [st.nextId]],
            nextId := st.nextId + 1 }
          (jsDrop (m.endIdx - st.atIndex) d :: rest)).1) := by
  refine ⟨?_, ?_, ?_, ?_, ?_, ?_⟩
  · cases started <;> by_cases hend : m.endIdx ≤ atIndex + len <;>
      by_cases hgt : m.start < atIndex + len <;>
      simp [classifyVisit, hend, hgt]
  · cases started <;> by_cases hend : m.endIdx ≤ atIndex + len <;>
      by_cases hgt : m.start < atIndex + len <;>
      simp [classifyVisit, hend, hgt]
  · cases started <;> by_cases hend : m.endIdx ≤ atIndex + len <;>
      by_cases hgt : m.start < atIndex + len <;>
      simp [classifyVisit, hend, hgt]
  · cases started <;> by_cases hend : m.endIdx ≤ atIndex + len <;>
      by_cases hgt : m.start < atIndex + len <;>
      simp [classifyVisit, hend, hgt]
  · cases started <;> by_cases hend : m.endIdx ≤ atIndex + len <;>
      by_cases hgt : m.start < atIndex + len <;>
      simp [classifyVisit, hend, hgt]
  · intro tag fuel st d rest qs hq hcl
    rw [walkTexts_endMulti tag fuel st d rest m qs hq hcl]

/-- C4 (confirmed). Single-node scenario: a paragraph holding the Text
node `This is a test`, pattern the literal `test`, replacement tag
`em`: after `replace` the paragraph holds exactly the Text node
`This is a ` followed by an `em` element wrapping `test` (no trailing
Text node, since the match ends the text), and the subsequent revert
restores the single Text node `This is a test`. -/
theorem C4_single_node_scenario :
    findAndReplaceST (literalRegex (str "test") false)
        (DNode.elem 0 "p" [DNode.text (str "This is a test")]) "em" 0 initialState =
      (.ok (DNode.elem 0 "p" [DNode.text (str "This is a "),
        DNode.elem 1 "em" [DNode.text (str "test")]]), some [[1]]) ∧
    revertOp (some [[1]]) (DNode.elem 0 "p" [DNode.text (str "This is a "),
        DNode.elem 1 "em" [DNode.text (str "test")]]) =
      (.ok (DNode.elem 0 "p" [DNode.text (str "This is a test")]), some []) := by decide

/-- C5 (corrected). Zero-length rejection: a zero-length full match
(`!m[0]`) raises the zero-length error eagerly during match location,
before any DOM mutation (the call returns the error and performs no
splice). The spec's claim that every capture-group-adjusted empty match
text raises this error is wrong: an empty captured string is falsy and
raises the invalid-capture-group error instead — see the
counterexample. -/
theorem C5_zero_length_rejection (rx : JsRegex) (root : DNode) (tag : String)
    (cg : Nat) (g : GlobalState) (r : RawMatch)
    (hexec : rx.exec (getText root) 0 = some r)
    (h0 : r.matched = [])
    (hte : getText root ≠ []) :
    getMatchIndexes (some r) cg = .error .zeroLengthMatch ∧
    locate rx (getText root) cg = .error .zeroLengthMatch ∧
    findAndReplaceST rx root tag cg g = (.error .zeroLengthMatch, some []) := by
  have hgmi : getMatchIndexes (some r) cg = .error .zeroLengthMatch := by
    simp [getMatchIndexes, h0]
  have hloc : locate rx (getText root) cg = .error .zeroLengthMatch := by
    rw [locate]
    by_cases hglob : rx.global = true
    · rw [if_pos hglob]
      rw [collectMatches, hexec]
      dsimp only
      rw [hgmi]
    · rw [if_neg hglob, hexec, hgmi]
  refine ⟨hgmi, hloc, ?_⟩
  simp only [findAndReplaceST]
  rw [if_neg hte, hloc]

/-- Engine behaviour of a pattern that matches the empty string at the
cursor (e.g. `x*` against text not containing `x`), without the
repeated-search flag. -/
def emptyMatchRegex : JsRegex := ⟨false, fun _ p => some ⟨p, [], []⟩⟩

/-- Concrete instance for C5: an empty-string match against `abc` is
rejected with the zero-length error before any DOM step. -/
theorem C5_zero_length_rejection_witness :
    getMatchIndexes (some ⟨0, [], []⟩) 0 = .error .zeroLengthMatch ∧
    locate emptyMatchRegex (getText (DNode.elem 0 "p" [DNode.text (str "abc")])) 0 =
      .error .zeroLengthMatch ∧
    findAndReplaceST emptyMatchRegex (DNode.elem 0 "p" [DNode.text (str "abc")])
      "em" 0 initialState = (.error .zeroLengthMatch, some []) :=
  C5_zero_length_rejection emptyMatchRegex (DNode.elem 0 "p" [DNode.text (str "abc")])
    "em" 0 initialState ⟨0, [], []⟩ rfl rfl (by decide)

/-- Counterexample to the spec's C5 claim: with `captureGroupIndex = 1`
and a participating but empty captured string, the group-adjusted match
text has length zero, yet the raised error is the invalid-capture-group
error, not the zero-length error. -/
theorem C5_counterexample :
    getMatchIndexes (some ⟨0, str "ab", [some []]⟩) 1 = .error .invalidCaptureGroup ∧
    getMatchIndexes (some ⟨0, str "ab", [some []]⟩) 1 ≠ .error .zeroLengthMatch := by
  decide

/-- C6 (code bug). Single-shot mode: the spec says a non-global pattern
that does not match yields zero descriptors and the call returns without
error and without mutation; the code instead pushes
`_getMatchIndexes(text.match(regex), ...)` unconditionally, so the null
match result is dereferenced (`m[0]`) and a `TypeError` is thrown: the
literal pattern `x` against the text `abc` crashes the call. -/
theorem C6_single_shot_no_match_crash :
    locate (literalRegex (str "x") false) (str "abc") 0 = .error .typeError ∧
    findAndReplaceST (literalRegex (str "x") false)
      (DNode.elem 0 "p" [DNode.text (str "abc")]) "em" 0 initialState =
      (.error .typeError, some []) := by decide

/-- C7 (corrected). Invalid capture group: for a non-degenerate match
(`m[0]` non-empty) and `captureGroupIndex > 0`, the invalid-capture-group
error is raised if and only if the requested capture is falsy — it did
not participate (`undefined`) or it participated with an empty string.
The spec's `iff it did not participate` is wrong on the second disjunct:
see the counterexample. The abort is eager: it happens inside
`_getMatchIndexes` during match location, before any DOM step. -/
theorem C7_invalid_capture_iff (r : RawMatch) (cg : Nat)
    (hcg : 0 < cg) (hm0 : r.matched ≠ []) :
    getMatchIndexes (some r) cg = .error .invalidCaptureGroup ↔
      (groupGet r cg = none ∨ groupGet r cg = some []) := by
  simp only [getMatchIndexes]
  rw [if_neg hm0, if_pos hcg]
  cases hgg : groupGet r cg with
  | none => simp
  | some gc =>
    dsimp only
    by_cases hge : gc = []
    · subst hge
      simp
    · rw [if_neg hge]
      simp [hge]

/-- Concrete instance for C7: a capture group that did not participate
raises the invalid-capture-group error. -/
theorem C7_invalid_capture_iff_witness :
    getMatchIndexes (some ⟨0, str "ab", [none]⟩) 1 = .error .invalidCaptureGroup :=
  (C7_invalid_capture_iff ⟨0, str "ab", [none]⟩ 1 (by decide) (by decide)).2
    (Or.inl (by decide))

/-- Counterexample to the spec's C7 claim: the capture group
participated in the match (it is the empty string, not `undefined`), yet
the invalid-capture-group error is raised. -/
theorem C7_counterexample :
    groupGet ⟨0, str "ab", [some []]⟩ 1 = some [] ∧
    getMatchIndexes (some ⟨0, str "ab", [some []]⟩) 1 = .error .invalidCaptureGroup := by
  decide

/-- C8 (confirmed). Capture-group narrowing: for a participating,
non-empty capture with `captureGroupIndex > 0`, the descriptor's start
is the full-match index advanced by the offset of the captured text
inside `m[0]` (`m[0].indexOf(cg)`), its matched text is the captured
text, and its end is start plus the captured text's length. -/
theorem C8_capture_narrowing (r : RawMatch) (cg : Nat) (gc : Str)
    (hcg : 0 < cg) (hm0 : r.matched ≠ []) (hget : groupGet r cg = some gc)
    (hgc : gc ≠ []) :
    getMatchIndexes (some r) cg =
      .ok ⟨(r.index : Int) + jsIndexOf r.matched gc,
           ((r.index : Int) + jsIndexOf r.matched gc) + gc.length, gc⟩ := by
  simp only [getMatchIndexes]
  rw [if_neg hm0, if_pos hcg, hget]
  dsimp only
  rw [if_neg hgc]

/-- Concrete instance for C8: pattern `(\d+) items` with
`captureGroupIndex = 1` on `42 items` yields a descriptor covering
exactly `42` (offsets 0 to 2), not the full match. -/
theorem C8_capture_narrowing_witness :
    getMatchIndexes (some ⟨0, str "42 items", [some (str "42")]⟩) 1 =
      .ok ⟨0, 2, str "42"⟩ := by
  have h := C8_capture_narrowing ⟨0, str "42 items", [some (str "42")]⟩ 1 (str "42")
    (by decide) (by decide) (by decide) (by decide)
  exact h.trans (by decide)

/-- C9 (confirmed). Non-overlap and order: the descriptor list a
successful `locate` produces under repeated-search mode over a
well-behaved engine is strictly ascending and non-overlapping — for
consecutive descriptors `a, b`, `a.start < b.start` and
`a.end <= b.start` — for every `captureGroupIndex`. -/
theorem C9_global_ordered (rx : JsRegex) (text : Str) (cg : Nat) (ms : List MatchDesc)
    (hglob : rx.global = true) (heng : EngineOk rx text)
    (hloc : locate rx text cg = .ok ms) :
    List.Chain' (fun a b => a.start < b.start ∧ a.endIdx ≤ b.start) ms := by
  obtain ⟨hall, hchain⟩ := locate_ok heng hloc
  exact chain_strengthen ms hall hchain

/-- Concrete instance for C9: the literal pattern `a` in repeated-search
mode over `aba` yields two ordered, non-overlapping descriptors. -/
theorem C9_global_ordered_witness :
    List.Chain' (fun a b : MatchDesc => a.start < b.start ∧ a.endIdx ≤ b.start)
      [⟨0, 1, str "a"⟩, ⟨2, 3, str "a"⟩] :=
  C9_global_ordered (literalRegex (str "a") true) (str "aba") 0
    [⟨0, 1, str "a"⟩, ⟨2, 3, str "a"⟩] rfl (literal_engineOk _ _ _) (by decide)

/-- C10 (confirmed, implicit). Revert before first replace: the module
variable `reverts` is undefined until the first `replace` call, so a
`revertLast()` before any replace faults with a `TypeError` (it is not
the documented empty-list no-op); every `replace` call — even one that
matches nothing or throws during match location — leaves the revert
list initialised, and a revert on the then-empty list returns without
effect. -/
theorem C10_revert_before_first_replace (root : DNode) :
    (revertOp initialState root).1 = .error .typeError ∧
    revertOp (some []) root = (.ok root, some []) ∧
    (∀ (rx : JsRegex) (root2 : DNode) (tag : String) (cg : Nat) (g : GlobalState),
      (findAndReplaceST rx root2 tag cg g).2 ≠ none) := by
  refine ⟨rfl, rfl, ?_⟩
  intro rx root2 tag cg g
  simp only [findAndReplaceST]
  by_cases h : getText root2 = []
  · rw [if_pos h]
    simp
  · rw [if_neg h]
    cases locate rx (getText root2) cg with
    | error e => simp
    | ok ms =>
      cases ms with
      | nil => simp
      | cons m0 ms2 => simp
